import Mathlib

/-!
Verification development for the Blog-Transfer repository.

The core of the repository is `converter.py` (class `MathJax_Converter`): a
three-stage text pipeline (block-math normalisation, blank-line merging,
inline-math normalisation) plus a shared character sanitizer, together with
`file_processor.py` (class `FileProcessor`) and the small YAML serializer in
`tools/MyYaml.py`.

Texts are modelled as `List Char` (Python strings are sequences of code
points).  Each Python `re.sub` call is embedded as a hand-rolled scanner that
implements the leftmost, ordered-alternation, backtracking semantics of that
specific pattern; every scanner is written with structural recursion (a fuel
parameter bounded by the text length where needed) so that all definitions
compute by kernel reduction.

Modelling notes, applying throughout:
* whitespace (`str.strip`, `\s`, `[^\S\n]`) is modelled by the ASCII
  whitespace characters recognised by Python (space, tab, newline, carriage
  return, vertical tab, form feed); non-ASCII Unicode whitespace is not
  modelled;
* the word characters of `\b` and the letters/digits of `[a-zA-Z]`/`\d` are
  the ASCII ones (`re` Unicode classes beyond ASCII are not modelled).
-/

namespace BlogTransfer

/-- Python whitespace (`str.strip`, `\s`): space, tab, newline, carriage
return, vertical tab, form feed (ASCII portion of Python's whitespace). -/
def isPySpace (c : Char) : Bool :=
  c = ' ' || c = '\t' || c = '\n' || c = '\r' || c = '\x0b' || c = '\x0c'

/-- Python `str.strip()`: drop leading and trailing whitespace. -/
def pyStrip (s : List Char) : List Char :=
  ((s.dropWhile isPySpace).reverse.dropWhile isPySpace).reverse

/-! ## Character sanitizer (`MathJax_Converter._sanitize_special_chars`) -/

/-- First sanitizer step, `re.sub(r'\|', r'\\vert ', text)`: every `|`
becomes the six characters backslash, v, e, r, t, space. -/
def replaceVert : List Char → List Char
  | [] => []
  | c :: cs =>
      if c = '|' then '\\' :: 'v' :: 'e' :: 'r' :: 't' :: ' ' :: replaceVert cs
      else c :: replaceVert cs

/-- ASCII letter, the character class `[a-zA-Z]`. -/
def isAsciiLetter (c : Char) : Bool :=
  ('a' ≤ c && c ≤ 'z') || ('A' ≤ c && c ≤ 'Z')

/-- Word character for the `\b` boundary (ASCII portion of `\w`):
letters, digits, underscore. -/
def isWordChar (c : Char) : Bool :=
  isAsciiLetter c || ('0' ≤ c && c ≤ '9') || c = '_'

/-- Attempt the `(\\[a-zA-Z]+)\b` part of the sanitizer pattern
`(_|\^)(\\[a-zA-Z]+)\b` at the head of `s` (the text right after the `_` or
`^`).  `[a-zA-Z]+` is greedy; the trailing `\b` holds for the maximal letter
run exactly when the next character is not a word character (shorter runs put
the boundary between two letters and can never satisfy it).  Returns the
letter run and the remaining text after the match (the boundary consumes
nothing). -/
def slashArgAt (s : List Char) : Option (List Char × List Char) :=
  if s.head? = some '\\' then
    let rest := s.drop 1
    let ls := rest.takeWhile isAsciiLetter
    let r := rest.dropWhile isAsciiLetter
    if ls.isEmpty then none
    else
      match r.head? with
      | some c => if isWordChar c then none else some (ls, r)
      | none => some (ls, r)
  else none

/-- Second sanitizer step, `re.sub` of `(_|\^)(\\[a-zA-Z]+)\b` with
replacement `\1{\2}`: a left-to-right non-overlapping scan wrapping a
backslash-named symbol after `_`/`^` in braces.  Fuel is any bound of at
least the text length; with fuel `0` the rest of the text is returned
unchanged (never reached from the wrapper). -/
def braceSlashArgsF : Nat → List Char → List Char
  | 0, s => s
  | _ + 1, [] => []
  | fuel + 1, c :: cs =>
      if c = '_' || c = '^' then
        match slashArgAt cs with
        | some (ls, r) =>
            c :: '\x7b' :: '\\' :: (ls ++ '\x7d' :: braceSlashArgsF fuel r)
        | none => c :: braceSlashArgsF fuel cs
      else c :: braceSlashArgsF fuel cs

/-- Third sanitizer step, `re.sub` of `([_^])([^{}\s\\])` with replacement
`\1{\2}`: wrap in braces a single character after `_`/`^` that is not a
brace, whitespace, or a backslash. -/
def braceSingleArgs : List Char → List Char
  | [] => []
  | [c] => [c]
  | c :: d :: rest =>
      if (c = '_' || c = '^') &&
          !(d = '\x7b' || d = '\x7d' || d = '\\' || isPySpace d) then
        c :: '\x7b' :: d :: '\x7d' :: braceSingleArgs rest
      else c :: braceSingleArgs (d :: rest)

/-- Fourth sanitizer step, `re.sub` of two-or-more spaces with one space:
each maximal run of two or more spaces collapses to a single space. -/
def squeezeSpaces : List Char → List Char
  | [] => []
  | [c] => [c]
  | c :: d :: rest =>
      if c = ' ' && d = ' ' then squeezeSpaces (d :: rest)
      else c :: squeezeSpaces (d :: rest)

/-- `MathJax_Converter._sanitize_special_chars`: the four regex passes in
source order. -/
def sanitize_special_chars (t : List Char) : List Char :=
  let t1 := replaceVert t
  squeezeSpaces (braceSingleArgs (braceSlashArgsF t1.length t1))

/-! ## Blank-line merger (`MathJax_Converter._merge_consecutive_empty_lines`) -/

/-- `get_level` from `_merge_consecutive_empty_lines`: `0` for a
whitespace-only line, the number of `>` for a line whose stripped,
space-free form is all `>`, `-1` otherwise. -/
def get_level (line : List Char) : Int :=
  let stripped := pyStrip line
  if stripped.isEmpty then 0
  else
    let clean := stripped.filter (fun c => c ≠ ' ')
    if clean.all (fun c => c = '>') then (clean.length : Int) else -1

/-- `min(lev for (_, lev) in current_group)` over a non-empty group
(`0` for the empty group, which the source never reaches). -/
def groupMin : List (List Char × Int) → Int
  | [] => 0
  | (_, v) :: t => t.foldl (fun a p => min a p.2) v

/-- Line emitted for a pending blank group when a content line arrives:
`("" if min_level == 0 else "> " * min_level).strip()`. -/
def emitMid (group : List (List Char × Int)) : List Char :=
  let m := groupMin group
  if m = 0 then [] else pyStrip (List.flatten (List.replicate m.toNat ['>', ' ']))

/-- Line emitted for a pending blank group at the end of the text:
`"" if min_level == 0 else ">" * min_level`. -/
def emitEnd (group : List (List Char × Int)) : List Char :=
  let m := groupMin group
  if m = 0 then [] else List.replicate m.toNat '>'

/-- The line loop of `_merge_consecutive_empty_lines`: accumulate blank
lines (level `≥ 0`) into the current group, flush the group as one line when
a content line arrives and at the end of the input. -/
def mergeLoop : List (List Char) → List (List Char × Int) → List (List Char)
  | [], group => if group.isEmpty then [] else [emitEnd group]
  | l :: ls, group =>
      let lv := get_level l
      if 0 ≤ lv then mergeLoop ls (group ++ [(l, lv)])
      else (if group.isEmpty then [] else [emitMid group]) ++ l :: mergeLoop ls []

/-- Python `text.split("\n")`. -/
def splitNl : List Char → List (List Char)
  | [] => [[]]
  | c :: rest =>
      if c = '\n' then [] :: splitNl rest
      else
        match splitNl rest with
        | l :: ls => (c :: l) :: ls
        | [] => [[c]]

/-- Python `"\n".join(lines)`. -/
def joinNl : List (List Char) → List Char
  | [] => []
  | [l] => l
  | l :: ls => l ++ '\n' :: joinNl ls

/-- Final step of the merger, `re.sub` of three-or-more newlines with two:
each maximal run of three or more newlines collapses to exactly two.  Fuel
is any bound of at least the text length. -/
def collapseNlF : Nat → List Char → List Char
  | 0, s => s
  | _ + 1, [] => []
  | fuel + 1, c :: rest =>
      if c = '\n' && rest.head? = some '\n' then
        '\n' :: '\n' :: collapseNlF fuel ((rest.drop 1).dropWhile (fun x => x = '\n'))
      else c :: collapseNlF fuel rest

/-- `MathJax_Converter._merge_consecutive_empty_lines` on a character
list. -/
def merge_consecutive_empty_lines (s : List Char) : List Char :=
  let joined := joinNl (mergeLoop (splitNl s) [])
  collapseNlF joined.length joined

/-! ## Output style (`config.standard_output_style`) -/

/-- The `output_style` dictionary consumed by `MathJax_Converter`. -/
structure OutputStyle where
  math_inline_surrounding : List Char
  math_block_begin : List Char
  math_block_end : List Char

/-- `config.standard_output_style`. -/
def standard_output_style : OutputStyle :=
  ⟨("$$").data, ("$$").data, ("$$\n").data⟩

/-! ## Block-math pass (`MathJax_Converter._convert_block_math`)

The source pattern, VERBOSE spelling removed, is
`(^[> ]*)\s*(\\begin{equation\*}|\\\[|\$\$|\$\$\$)(.*?)`
`(\\end{equation\*}|\\\]|\$\$|\$\$\$)[^\S\n]*((?:\n|$))`
with DOTALL, MULTILINE.  A match can only start at a line start (`^`).
`[> ]*` and `\s*` are greedy; giving characters back can never help, because
every begin token starts with a backslash or a dollar, which is neither a
quote/space character nor whitespace, so both runs are maximal and fixed.
`(.*?)` is lazy and the two alternations are tried in source order, the
begin alternation being an outer backtracking point to the body length and
the end alternation an inner one; the tail `[^\S\n]*(?:\n|$)` is again
deterministic (giving back a non-newline space can never reach `\n` or the
end). -/

/-- Characters of the `[> ]` class. -/
def isQuoteSp (c : Char) : Bool := c = '>' || c = ' '

/-- Characters of the `[^\S\n]` class: whitespace other than newline. -/
def isBlankNotNl (c : Char) : Bool := isPySpace c && c ≠ '\n'

/-- The begin-token alternation
`\\begin{equation\*}|\\\[|\$\$|\$\$\$`, in source order. -/
def blockBeginToks : List (List Char) :=
  [("\\begin\x7bequation*\x7d").data, ("\\[").data, ("$$").data, ("$$$").data]

/-- The end-token alternation `\\end{equation\*}|\\\]|\$\$|\$\$\$`,
in source order. -/
def blockEndToks : List (List Char) :=
  [("\\end\x7bequation*\x7d").data, ("\\]").data, ("$$").data, ("$$$").data]

/-- The tail `[^\S\n]*((?:\n|$))` after an end token: skip non-newline
whitespace, then consume a newline (group 5 = `"\n"`) or succeed at the end
of the text (group 5 = `""`). -/
def blockTail (s : List Char) : Option (List Char × List Char) :=
  match s.dropWhile isBlankNotNl with
  | [] => some ([], [])
  | '\n' :: r2 => some (['\n'], r2)
  | _ => none

/-- Try the end tokens in alternation order at the current position; an end
token whose tail fails backtracks to the next alternative.  Returns
(group 5, rest after the whole match). -/
def tryEnds : List (List Char) → List Char → Option (List Char × List Char)
  | [], _ => none
  | tok :: toks, s =>
      if tok.isPrefixOf s then
        match blockTail (s.drop tok.length) with
        | some (g5, rest) => some (g5, rest)
        | none => tryEnds toks s
      else tryEnds toks s

/-- The lazy body `(.*?)` followed by the end alternation and tail: at each
position first try to close (shortest body wins), otherwise extend the body
by one character.  Returns (body, group 5, rest). -/
def blockBody : Nat → List Char → List Char → Option (List Char × List Char × List Char)
  | 0, _, _ => none
  | fuel + 1, acc, s =>
      match tryEnds blockEndToks s with
      | some (g5, rest) => some (acc, g5, rest)
      | none =>
          match s with
          | [] => none
          | c :: s2 => blockBody fuel (acc ++ [c]) s2

/-- Try the begin tokens in alternation order; a begin token whose whole
body search fails backtracks to the next alternative. -/
def tryBegins : List (List Char) → List Char → Option (List Char × List Char × List Char)
  | [], _ => none
  | tok :: toks, s =>
      if tok.isPrefixOf s then
        match blockBody (s.length + 1) [] (s.drop tok.length) with
        | some r => some r
        | none => tryBegins toks s
      else tryBegins toks s

/-- Attempt the whole block pattern at a line-start position: capture
`[> ]*` (group 1), skip `\s*`, then the begin/body/end/tail machinery.
Returns (group 1, body, group 5, rest after the match). -/
def matchBlockAt (s : List Char) : Option (List Char × List Char × List Char × List Char) :=
  let g1 := s.takeWhile isQuoteSp
  let s2 := (s.dropWhile isQuoteSp).dropWhile isPySpace
  match tryBegins blockBeginToks s2 with
  | some (body, g5, rest) => some (g1, body, g5, rest)
  | none => none

/-- `_replace_block`: the replacement construction
`f"{indent}\n{indent}{space}{begin}{sanitized}{end}{indent}" + trailing`
with `indent = group(1).strip()` and `space = ' ' if indent else ''`. -/
def replace_block (style : OutputStyle) (g1 body g5 : List Char) : List Char :=
  let indent := pyStrip g1
  let sp := if indent.isEmpty then ([] : List Char) else [' ']
  indent ++ '\n' :: (indent ++ sp ++ style.math_block_begin ++
    sanitize_special_chars body ++ style.math_block_end ++ indent ++ g5)

/-- The `re.sub` scan of the block pattern: walk the text, attempting a
match at every line start (`^` fails elsewhere), emitting the replacement
and resuming after the match.  `atLS` records whether the current position
is the start of the text or follows a newline. -/
def blockSubF (style : OutputStyle) : Nat → Bool → List Char → List Char
  | 0, _, s => s
  | _ + 1, _, [] => []
  | fuel + 1, atLS, c :: rest =>
      match (if atLS then matchBlockAt (c :: rest) else none) with
      | some (g1, body, g5, rest2) =>
          replace_block style g1 body g5 ++ blockSubF style fuel (!g5.isEmpty) rest2
      | none => c :: blockSubF style fuel (c = '\n') rest

/-- `MathJax_Converter._convert_block_math`. -/
def convert_block_math (style : OutputStyle) (s : List Char) : List Char :=
  blockSubF style (s.length + 1) true s

/-! ## Inline-math pass (`MathJax_Converter._convert_inline_math`) -/

/-- Lazy body search for `(.*?)(?<!\\)\\\)` (DOTALL): at each position first
try to close on `\)` whose preceding character (`last`) is not a backslash,
otherwise extend the body.  Returns (body, rest after `\)`). -/
def parenBody : Nat → List Char → Char → List Char → Option (List Char × List Char)
  | 0, _, _, _ => none
  | fuel + 1, acc, last, s =>
      match s with
      | '\\' :: ')' :: rest =>
          if last ≠ '\\' then some (acc, rest)
          else parenBody fuel (acc ++ ['\\']) '\\' (')' :: rest)
      | c :: rest => parenBody fuel (acc ++ [c]) c rest
      | [] => none

/-- The `re.sub` scan of `(?<!\\)\\\((.*?)(?<!\\)\\\)` (DOTALL): `prev` is
the character just before the current position in the original text (for
the lookbehind). -/
def parenSubF (style : OutputStyle) : Nat → Option Char → List Char → List Char
  | 0, _, s => s
  | _ + 1, _, [] => []
  | fuel + 1, prev, c :: rest =>
      if c = '\\' && rest.head? = some '(' && prev ≠ some '\\' then
        match parenBody ((rest.drop 1).length + 1) [] '(' (rest.drop 1) with
        | some (body, rest3) =>
            style.math_inline_surrounding ++ sanitize_special_chars body ++
              style.math_inline_surrounding ++ parenSubF style fuel (some ')') rest3
        | none => c :: parenSubF style fuel (some c) rest
      else c :: parenSubF style fuel (some c) rest

/-- Body-and-closing search for `([^$]+?)(?<!\s)\$(?!\$)` starting right
after the opening `$`: the body may not contain `$`, so the closing `$` can
only be the first `$` of the remaining text; the match fails if that `$` is
preceded by whitespace or followed by another `$` (the body cannot grow past
it).  Returns (body, rest after the closing `$`). -/
def dollarBody : List Char → Option (List Char × List Char)
  | [] => none
  | c :: rest =>
      if c = '$' then none
      else if rest.head? = some '$' then
        if !isPySpace c && (rest.drop 1).head? ≠ some '$' then some ([c], rest.drop 1)
        else none
      else
        match dollarBody rest with
        | some (b, r2) => some (c :: b, r2)
        | none => none

/-- The `re.sub` scan of `(?<!\\)\$(?!\s)([^$]+?)(?<!\s)\$(?!\$)`: at an
unescaped `$` not followed by whitespace, search the body and closing;
`prev` is the character just before the current position. -/
def dollarSubF (style : OutputStyle) : Nat → Option Char → List Char → List Char
  | 0, _, s => s
  | _ + 1, _, [] => []
  | fuel + 1, prev, c :: rest =>
      if c = '$' then
        if prev ≠ some '\\' &&
            (match rest.head? with | some d => !isPySpace d | none => true) then
          match dollarBody rest with
          | some (body, rest2) =>
              style.math_inline_surrounding ++ sanitize_special_chars body ++
                style.math_inline_surrounding ++ dollarSubF style fuel (some '$') rest2
          | none => c :: dollarSubF style fuel (some c) rest
        else c :: dollarSubF style fuel (some c) rest
      else c :: dollarSubF style fuel (some c) rest

/-- `MathJax_Converter._convert_inline_math`: the `\(...\)` pass, then the
`$...$` pass. -/
def convert_inline_math (style : OutputStyle) (s : List Char) : List Char :=
  let s1 := parenSubF style (s.length + 1) none s
  dollarSubF style (s1.length + 1) none s1

/-- `MathJax_Converter.convert`: block pass, blank-line merge, inline
pass. -/
def convert (style : OutputStyle) (s : List Char) : List Char :=
  convert_inline_math style (merge_consecutive_empty_lines (convert_block_math style s))

/-- `convert` with the default style, on Lean strings. -/
def convertStr (s : String) : String :=
  String.mk (convert standard_output_style s.data)

/-! ## YAML serializer (`tools/MyYaml.py`) -/

/-- The values handled by `MyYaml.dump` / `format_value`: strings, booleans,
ints, `None`, lists, dicts (insertion-ordered key/value pairs). -/
inductive Yaml where
  | str (s : List Char)
  | bool (b : Bool)
  | int (n : Int)
  | null
  | list (xs : List Yaml)
  | dict (kvs : List (List Char × Yaml))

/-- `MyYaml.format_value` (the source never reaches the container cases:
`dump` branches on `isinstance(value, (dict, list))` first). -/
def format_value : Yaml → List Char
  | .null => ("null").data
  | .bool b => if b then ("true").data else ("false").data
  | .int n => (toString n).data
  | .str s => s
  | .list _ => []
  | .dict _ => []

/-- Whether `isinstance(value, (dict, list))` holds. -/
def isContainer : Yaml → Bool
  | .list _ => true
  | .dict _ => true
  | _ => false

mutual

/-- `MyYaml.dump`: dicts render `key: value` or `key:` followed by a nested
block; lists render items or nested blocks; scalars at top level render as
the empty string (the source's `yaml_str` stays `""`). -/
def yamlDump : Yaml → Nat → List Char
  | .dict kvs, indent => yamlDumpKvs kvs indent
  | .list xs, indent => yamlDumpList xs indent
  | _, _ => []

def yamlDumpKvs : List (List Char × Yaml) → Nat → List Char
  | [], _ => []
  | (k, v) :: rest, indent =>
      let space := List.flatten (List.replicate indent [' ', ' '])
      (if isContainer v then
        space ++ k ++ (":\n").data ++ yamlDump v (indent + 1)
      else
        space ++ k ++ (": ").data ++ format_value v ++ ['\n'])
      ++ yamlDumpKvs rest indent

def yamlDumpList : List Yaml → Nat → List Char
  | [], _ => []
  | x :: rest, indent =>
      let space := List.flatten (List.replicate indent [' ', ' '])
      (if isContainer x then
        space ++ ['\n'] ++ yamlDump x (indent + 1)
      else
        space ++ format_value x ++ ['\n'])
      ++ yamlDumpList rest indent

end

/-! ## File pipeline (`file_processor.py`, class `FileProcessor`)

Filesystem effects are modelled by explicit values: the input file is passed
as its textual content, the file's formatted modification time
(`datetime.fromtimestamp(os.path.getmtime(p)).strftime("%Y-%m-%d %H:%M:%S")`,
a local-time rendering outside a pure embedding) is passed as a string, the
set of names already present in the PDF assets directory is passed as a
list, and the single output write at the end of `process_file` is the
returned `PostFile` value; raised exceptions are `Except.error`. -/

/-- The `metadata` dictionary: keys used by `process_file` and the
handlers.  `layout`/`categories` are read with `.get` defaults; `time` is
added by `process_file` itself. -/
structure Metadata where
  title : List Char
  description : List Char
  tags : List (List Char)
  layout : Option (List Char)
  categories : Option (List Char)
  time : Option (List Char)
deriving DecidableEq, Repr

/-- The single file written by `process_file`: its generated name and its
full contents. -/
structure PostFile where
  name : List Char
  contents : List Char
deriving DecidableEq, Repr

/-- `re.sub(r':+', '-', title)`: each maximal run of one or more colons
becomes a single dash. -/
def collapseColons : List Char → List Char
  | [] => []
  | [c] => if c = ':' then ['-'] else [c]
  | c :: d :: rest =>
      if c = ':' then
        if d = ':' then collapseColons (d :: rest)
        else '-' :: collapseColons (d :: rest)
      else c :: collapseColons (d :: rest)

/-- Head-match helper for the heading pattern `^#\s+(.+)$` (MULTILINE, no
DOTALL), applied to the text right after a `#` at a line start: `\s+` is
greedy (and may span newlines), `(.+)` needs at least one non-newline
character, and `$` always holds after a maximal non-newline run.  When the
character after the maximal whitespace run exists it is non-whitespace, so
`\s+` keeps the whole run and `(.+)` is the maximal non-newline run from
there; otherwise `\s+` backtracks to end just before the last non-newline
character of the run, and `(.+)` is that single character.  Returns the
length of the match after the `#`, or `none`. -/
def headingMatchLen (s : List Char) : Option Nat :=
  match s with
  | [] => none
  | c :: rest2 =>
      if !isPySpace c then none
      else
        let run := rest2.takeWhile isPySpace
        let after := rest2.dropWhile isPySpace
        match after with
        | _ :: _ => some (1 + run.length + (after.takeWhile (fun x => x ≠ '\n')).length)
        | [] =>
            let core := run.reverse.dropWhile (fun x => x = '\n')
            match core with
            | [] => none
            | _ :: _ => some (1 + core.length)

/-- `re.search(r'^#\s+(.+)$', content, re.MULTILINE)` as an existence test:
scan for a line-start `#` whose tail matches. -/
def hasHeadingAux : Bool → List Char → Bool
  | _, [] => false
  | atLS, c :: rest =>
      (atLS && c = '#' && (headingMatchLen rest).isSome) || hasHeadingAux (c = '\n') rest

/-- `re.sub(r'^#\s+.+$', '', content, count=1, flags=re.MULTILINE)`: delete
the leftmost heading match, leave the rest untouched. -/
def removeHeadingAux : Bool → List Char → List Char
  | _, [] => []
  | atLS, c :: rest =>
      if atLS && c = '#' then
        match headingMatchLen rest with
        | some n => rest.drop n
        | none => c :: removeHeadingAux (c = '\n') rest
      else c :: removeHeadingAux (c = '\n') rest

/-! The table-of-contents removal regex of `_handle_markdown`:
`(?si)(?:\n*\[TOC\]\n*|\n*\[\[TOC\]\]\n*|\n*\{:\s*toc\s*\}\n*|`
`\n*\[toc\]\n*|\n*\[ToC\]\n*|\n*\[to[cC]\]\n*|`
`(?:(?:^|\n)(?: {0,3}-| {0,3}\d+\.) .*\n)+(?=\n*#))`
replaced by `"\n"`.  Flags are DOTALL and IGNORECASE but not MULTILINE, so
the `^` inside the last alternative only matches at the start of the text
and `.*` spans newlines. -/

/-- Case-insensitive character comparison (IGNORECASE). -/
def ciEq (a b : Char) : Bool := a.toLower = b.toLower

/-- Case-insensitive prefix test. -/
def isPrefixCI : List Char → List Char → Bool
  | [], _ => true
  | _ :: _, [] => false
  | a :: xs, b :: ys => ciEq a b && isPrefixCI xs ys

/-- One literal TOC alternative `\n*TOKEN\n*` (case-insensitive): both `\n*`
runs are greedy and deterministic, since the token does not start with a
newline.  Returns the rest after the match. -/
def tocLitAt (tok : List Char) (s : List Char) : Option (List Char) :=
  let s1 := s.dropWhile (fun c => c = '\n')
  if isPrefixCI tok s1 then
    some ((s1.drop tok.length).dropWhile (fun c => c = '\n'))
  else none

/-- The alternative `\n*\{:\s*toc\s*\}\n*` (case-insensitive): both `\s*`
runs are greedy and deterministic (`t` and the closing brace are not
whitespace). -/
def tocBraceAt (s : List Char) : Option (List Char) :=
  match s.dropWhile (fun c => c = '\n') with
  | '\x7b' :: ':' :: r =>
      let r1 := r.dropWhile isPySpace
      if isPrefixCI ("toc").data r1 then
        match (r1.drop 3).dropWhile isPySpace with
        | '\x7d' :: r3 => some (r3.dropWhile (fun c => c = '\n'))
        | _ => none
      else none
  | _ => none

/-- Candidate rests after a greedy `.*\n` (DOTALL): the text right after
each newline of `s`, longest consumed first (the greedy `.*` prefers the
last newline). -/
def restsAfterNl : List Char → List (List Char)
  | [] => []
  | c :: rest => (if c = '\n' then [rest] else []) ++ restsAfterNl rest

/-- The item head `(?: {0,3}-| {0,3}\d+\.) ` (a list bullet or a numbered
bullet, then one space): deterministic, since `-`, digits and space are
distinct characters, the space run must have length at most 3 and is
consumed whole. -/
def itemHead (s0 : List Char) : Option (List Char) :=
  let sp := s0.takeWhile (fun c => c = ' ')
  let r := s0.dropWhile (fun c => c = ' ')
  if sp.length ≤ 3 then
    match r with
    | '-' :: ' ' :: r3 => some r3
    | '-' :: _ => none
    | _ =>
        let ds := r.takeWhile (fun c => c.isDigit)
        if ds.isEmpty then none
        else
          match r.dropWhile (fun c => c.isDigit) with
          | '.' :: ' ' :: r3 => some r3
          | _ => none
  else none

/-- Candidate rests after one whole item
`(?:^|\n)(?: {0,3}-| {0,3}\d+\.) .*\n`, in backtracking preference order:
the `^` alternative (only when at the start of the text) before the `\n`
alternative, then the greedy `.*\n` candidates. -/
def tocItemRests (atStart : Bool) (s : List Char) : List (List Char) :=
  let starts : List (List Char) :=
    (if atStart then [s] else []) ++
      (match s with | '\n' :: r => [r] | _ => [])
  (starts.map (fun s0 =>
    match itemHead s0 with
    | some r3 => restsAfterNl r3 |>.reverse
    | none => [])).flatten

/-- The lookahead `(?=\n*#)`: greedy `\n*` then `#`, deterministic. -/
def tocLookahead (s : List Char) : Bool :=
  match s.dropWhile (fun c => c = '\n') with
  | '#' :: _ => true
  | _ => false

/-- First success of `f` over candidates in preference order. -/
def firstSome : List (List Char) → (List Char → Option (List Char)) → Option (List Char)
  | [], _ => none
  | x :: xs, f => match f x with | some r => some r | none => firstSome xs f

/-- Greedy `(...)+` over items followed by the lookahead: having matched at
least one item ending at `s`, prefer matching a further item (depth-first
over the candidate rests) and fall back to the lookahead at `s`. -/
def tocItemsPlus : Nat → List Char → Option (List Char)
  | 0, _ => none
  | fuel + 1, s =>
      match firstSome (tocItemRests false s) (fun r => tocItemsPlus fuel r) with
      | some r => some r
      | none => if tocLookahead s then some s else none

/-- The whole item-block alternative at a position. -/
def tocItemsAt (atStart : Bool) (fuel : Nat) (s : List Char) : Option (List Char) :=
  firstSome (tocItemRests atStart s) (fun r => tocItemsPlus fuel r)

/-- The whole TOC pattern at a position, alternatives in source order (the
case-insensitive `[toc]`, `[ToC]`, `[to[cC]]` alternatives are retained
even though `[TOC]` subsumes them under IGNORECASE). -/
def tocMatchAt (atStart : Bool) (s : List Char) : Option (List Char) :=
  match tocLitAt ("[TOC]").data s with
  | some r => some r
  | none =>
  match tocLitAt ("[[TOC]]").data s with
  | some r => some r
  | none =>
  match tocBraceAt s with
  | some r => some r
  | none =>
  match tocLitAt ("[toc]").data s with
  | some r => some r
  | none =>
  match tocLitAt ("[ToC]").data s with
  | some r => some r
  | none =>
  match tocLitAt ("[toc]").data s with
  | some r => some r
  | none => tocItemsAt atStart (s.length + 1) s

/-- The `re.sub` scan of the TOC pattern, replacement `"\n"` (every match
consumes at least one character). -/
def tocSubF : Nat → Bool → List Char → List Char
  | 0, _, s => s
  | _ + 1, _, [] => []
  | fuel + 1, atStart, c :: rest =>
      match tocMatchAt atStart (c :: rest) with
      | some r => '\n' :: tocSubF fuel false r
      | none => c :: tocSubF fuel false rest

/-- `os.path.splitext(path)[1]`: the extension of the final path component,
where the leading dots of the component never begin an extension. -/
def splitextExt (path : List Char) : List Char :=
  let base := (path.reverse.takeWhile (fun c => c ≠ '/' && c ≠ '\\')).reverse
  let core := base.dropWhile (fun c => c = '.')
  let revCore := core.reverse
  if revCore.any (fun c => c = '.') then
    '.' :: (revCore.takeWhile (fun c => c ≠ '.')).reverse
  else []

/-- Characters replaced by `-` in `_generate_filename`'s slug pattern
`[\\/:\*\?"<>\|\s]+`. -/
def isSlugBad (c : Char) : Bool :=
  c = '\\' || c = '/' || c = ':' || c = '*' || c = '?' || c = '"' ||
    c = '<' || c = '>' || c = '|' || isPySpace c

/-- The slug substitution: each maximal run of slug-hostile characters
becomes a single dash. -/
def slugReplace : List Char → List Char
  | [] => []
  | [c] => if isSlugBad c then ['-'] else [c]
  | c :: d :: rest =>
      if isSlugBad c then
        if isSlugBad d then slugReplace (d :: rest)
        else '-' :: slugReplace (d :: rest)
      else c :: slugReplace (d :: rest)

/-- Python `str.strip('-')`. -/
def stripDashes (s : List Char) : List Char :=
  ((s.dropWhile (fun c => c = '-')).reverse.dropWhile (fun c => c = '-')).reverse

/-- `FileProcessor._generate_filename`: `strptime` on
`"%Y-%m-%d %H:%M:%S"` followed by `strftime("%Y-%m-%d")` keeps the first
ten characters of the stored time string. -/
def generate_filename (meta : Metadata) : List Char :=
  let dateStr := (meta.time.getD []).take 10
  let slug := stripDashes (pyStrip (slugReplace meta.title))
  dateStr ++ '-' :: slug ++ (".md").data

/-- `FileProcessor._handle_markdown`: heading check (the extracted title
itself is unused by the source), heading removal, TOC removal, math
conversion, front matter.  Returns `(front_matter, body)`. -/
def handle_markdown (content : List Char) (meta : Metadata) :
    Except (List Char) (List Char × List Char) :=
  if hasHeadingAux true content then
    let content1 := removeHeadingAux true content
    let content2 := tocSubF (content1.length + 1) true content1
    let body := convert standard_output_style content2
    let fm := yamlDump (Yaml.dict
      [(("layout").data, .str (meta.layout.getD ("post").data)),
       (("title").data, .str meta.title),
       (("date").data, .str (meta.time.getD [])),
       (("description").data, .str meta.description),
       (("tags").data, .list (meta.tags.map .str)),
       (("categories").data, .str (meta.categories.getD ("Notes").data)),
       (("toc").data, .dict [(("beginning").data, .bool true)])]) 0
    .ok (fm, body)
  else .error ("未找到一级标题（# Title）").data

/-- Collision resolution of `_handle_pdf`: the first of `name`,
`stem_1.ext`, `stem_2.ext`, … not yet present in the assets directory. -/
def resolvePdfName (fuel : Nat) (existing : List (List Char)) (stem ext : List Char)
    (counter : Nat) : List Char :=
  match fuel with
  | 0 => stem ++ '_' :: (toString counter).data ++ ext
  | fuel + 1 =>
      let cand := stem ++ '_' :: (toString counter).data ++ ext
      if existing.contains cand then resolvePdfName fuel existing stem ext (counter + 1)
      else cand

/-- `FileProcessor._handle_pdf`: copy the PDF into `../assets/pdf/posts`
(the copy itself is filesystem plumbing; only the chosen destination name
matters to the produced front matter), build redirect front matter, empty
body.  `os.path.relpath(dest, start='../assets')` is the constant
`pdf/posts/<name>`. -/
def handle_pdf (pdfName : List Char) (existing : List (List Char)) (meta : Metadata) :
    Except (List Char) (List Char × List Char) :=
  let destName :=
    if existing.contains pdfName then
      let hasDot := pdfName.any (fun c => c = '.')
      let ext :=
        if hasDot then '.' :: (pdfName.reverse.takeWhile (fun c => c ≠ '.')).reverse
        else []
      let stem :=
        if hasDot then ((pdfName.reverse.dropWhile (fun c => c ≠ '.')).drop 1).reverse
        else pdfName
      resolvePdfName (existing.length + 1) existing stem ext 1
    else pdfName
  let fm := yamlDump (Yaml.dict
    [(("layout").data, .str ("post").data),
     (("title").data, .str meta.title),
     (("date").data, .str (meta.time.getD [])),
     (("redirect").data, .str (("../pdf/posts/").data ++ destName)),
     (("categories").data, .str (meta.categories.getD ("Notes").data))]) 0
  .ok (fm, [])

/-- Python `os.path.basename`-like final component (used for
`Path(input_path).name`). -/
def basenameOf (path : List Char) : List Char :=
  (path.reverse.takeWhile (fun c => c ≠ '/' && c ≠ '\\')).reverse

/-- `FileProcessor.process_file`: mutate the metadata (colon runs in the
title become dashes, the result is stripped; the formatted modification
time is stored under `time`), dispatch on the lower-cased extension, and on
success write the single output file `---\n<front matter>---\n<body>`.  The
in-place mutation of the caller's dictionary is modelled by returning the
updated metadata alongside the result, whether or not an error was
raised. -/
def process_file (input_path : List Char) (content : List Char) (mtimeStr : List Char)
    (existingPdf : List (List Char)) (meta : Metadata) :
    Except (List Char) PostFile × Metadata :=
  let meta1 := { meta with
    title := pyStrip (collapseColons meta.title),
    time := some mtimeStr }
  let ext := splitextExt (input_path.map Char.toLower)
  let r :=
    if ext = (".md").data then handle_markdown content meta1
    else if ext = (".pdf").data then handle_pdf (basenameOf input_path) existingPdf meta1
    else .error (("不支持的文件类型：").data ++ ext)
  match r with
  | .error e => (.error e, meta1)
  | .ok (fm, body) =>
      (.ok ⟨generate_filename meta1, ("---\n").data ++ fm ++ ("---\n").data ++ body⟩, meta1)

/-! ## Specification-side definitions

The following definitions formalise the specification's wording (run
grouping of the blank-line merger, the sanitizer's input class, the inline
span conditions) for comparison against the source-derived functions
above. -/

/-- Specification classifier: a line is blank when it is whitespace-only
(strips to nothing) or consists solely of `>` characters optionally
separated by spaces. -/
def specIsBlank (l : List Char) : Bool :=
  (pyStrip l).isEmpty || ((pyStrip l).filter (fun c => c ≠ ' ')).all (fun c => c = '>')

/-- Specification quote depth of a blank line: the number of `>` characters
(`0` for a whitespace-only line). -/
def specDepth (l : List Char) : Nat :=
  ((pyStrip l).filter (fun c => c ≠ ' ')).length

/-- Minimum quote depth over a run of blank lines. -/
def runMinDepth : List (List Char) → Nat
  | [] => 0
  | l :: ls => ls.foldl (fun a x => min a (specDepth x)) (specDepth l)

/-- The single line emitted for a blank run: the empty string when the
minimum depth is `0`; otherwise, for a run ended by a content line,
`"> "` repeated `min` times and stripped, and for a run at the end of the
text, `min` repetitions of `>`. -/
def runLine (run : List (List Char)) (atEnd : Bool) : List Char :=
  let m := runMinDepth run
  if m = 0 then []
  else if atEnd then List.replicate m '>'
  else pyStrip (List.flatten (List.replicate m ['>', ' ']))

/-- Specification form of the merger's line pass: group maximal runs of
consecutive blank lines and replace each run by its single representative
line; content lines pass through unchanged. -/
def specMergeLines : List (List Char) → List (List Char)
  | [] => []
  | l :: ls =>
      if specIsBlank l then
        match h : (l :: ls).dropWhile specIsBlank with
        | [] => [runLine ((l :: ls).takeWhile specIsBlank) true]
        | r :: rs => runLine ((l :: ls).takeWhile specIsBlank) false :: r :: specMergeLines rs
      else l :: specMergeLines ls
termination_by ls => ls.length
decreasing_by
· simp only [List.length_cons]
  have h1 : ((l :: ls).dropWhile specIsBlank).length ≤ (l :: ls).length :=
    (List.dropWhile_suffix _).length_le
  rw [h] at h1
  simp only [List.length_cons] at h1
  omega
· simp

/-- The input class of the sanitizer idempotence claim: what may follow a
`_` or `^` so that neither auto-bracing rule has an argument to wrap. -/
def bareOkAfter : Option Char → Bool
  | none => true
  | some d => d = '\x7b' || d = '\x7d' || isPySpace d

/-- Every `_`/`^` of the text is immediately followed by a brace,
whitespace, or the end of the text: the text has no bare subscript or
superscript argument. -/
def noBareSub : List Char → Bool
  | [] => true
  | c :: rest =>
      (if c = '_' || c = '^' then bareOkAfter rest.head? else true) && noBareSub rest

/-- The inline-span conditions exactly as the specification claim words
them, for a span with opening `$` at index `p` and closing `$` at index
`j`: the opening `$` is not backslash-escaped and not immediately followed
by whitespace, the closing `$` is not preceded by whitespace and not
immediately followed by another `$`, and the body contains no unescaped
`$`. -/
def specInlineSpan (s : List Char) (p j : Nat) : Prop :=
  p < j ∧ j < s.length ∧ s.getD p '#' = '$' ∧ s.getD j '#' = '$' ∧
  (p = 0 ∨ s.getD (p - 1) '#' ≠ '\\') ∧
  (s.length ≤ p + 1 ∨ isPySpace (s.getD (p + 1) '#') = false) ∧
  isPySpace (s.getD (j - 1) '#') = false ∧
  (s.length ≤ j + 1 ∨ s.getD (j + 1) '#' ≠ '$') ∧
  ∀ i < j, p < i → s.getD i '#' = '$' → s.getD (i - 1) '#' = '\\'

/-! ## Theorems -/

/-- C1 counterexample: on the input `"$$\nx=1\n$$\n"` with the default
style, `convert` does not return the claimed string
`"\n$$\nx={1}\n$$\n\n"`: the sanitizer leaves `x=1` unchanged (`=` triggers
no bracing) and the blank-line merger collapses the trailing blank line,
so the claimed output is wrong in both respects. -/
theorem C1_counterexample : convertStr "$$\nx=1\n$$\n" ≠ "\n$$\nx=\x7b1\x7d\n$$\n\n" := by
  decide

/-- C1 amended: on the input `"$$\nx=1\n$$\n"` with the default style,
`convert` returns exactly `"\n$$\nx=1\n$$\n"`: the delimiters are replaced,
a leading separator line is inserted, the body is sanitized (unchanged,
since `=` is not a sub/superscript trigger), and the trailing blank line
produced by the block conversion is collapsed by the merger so the output
ends with a single newline. -/
theorem C1_amended_thm : convertStr "$$\nx=1\n$$\n" = "\n$$\nx=1\n$$\n" := by
  decide

/-- C4: the sanitizer's auto-bracing braces `x_1` to `x_{1}`, leaves
`x_{1}` unchanged, and braces the whole command name in `a_\alpha` to
`a_{\alpha}` — the named-symbol rule fires before the single-character
rule, so the command name is never truncated after its first letter. -/
theorem C4_thm :
    String.mk (sanitize_special_chars ("x_1").data) = "x_\x7b1\x7d" ∧
    String.mk (sanitize_special_chars ("x_\x7b1\x7d").data) = "x_\x7b1\x7d" ∧
    String.mk (sanitize_special_chars ("a_\\alpha").data) = "a_\x7b\\alpha\x7d" := by
  decide

/-- C6: for every block-math match the replacement text is the stripped
quote prefix on its own line, then the prefix again followed by a single
space exactly when the prefix is non-empty, then the configured block-begin
delimiter, the sanitized body, the configured block-end delimiter, the
prefix once more and the captured trailing newline; the two concrete block
conversions witness the quoted and unquoted cases (no stray space when the
prefix is empty). -/
theorem C6_thm :
    (∀ (style : OutputStyle) (g1 body g5 : List Char),
      replace_block style g1 body g5 =
        pyStrip g1 ++ '\n' ::
          (pyStrip g1 ++ (if pyStrip g1 = [] then [] else [' ']) ++
            style.math_block_begin ++ sanitize_special_chars body ++
            style.math_block_end ++ pyStrip g1 ++ g5)) ∧
    String.mk (convert_block_math standard_output_style ("> $$x$$\n").data) =
      ">\n> $$x$$\n>\n" ∧
    String.mk (convert_block_math standard_output_style ("$$x$$\n").data) =
      "\n$$x$$\n\n" := by
  refine ⟨fun style g1 body g5 => ?_, by decide, by decide⟩
  unfold replace_block
  by_cases h : pyStrip g1 = [] <;> simp [h]

/-- C10: `process_file` updates the caller's metadata before dispatching on
the file type — every run of colons in the title becomes a single dash and
the result is stripped, and the `time` key receives the formatted
modification time — and the caller observes the updated metadata after the
call, whether or not an error was raised. -/
theorem C10_thm :
    ∀ (input_path content mtimeStr : List Char) (existingPdf : List (List Char))
      (meta : Metadata),
      (process_file input_path content mtimeStr existingPdf meta).2 =
        { meta with title := pyStrip (collapseColons meta.title), time := some mtimeStr } := by
  intro p c m px meta
  unfold process_file
  dsimp only
  split <;> rfl

/-- C9: calling `process_file` on a Markdown input whose content has no
level-1 heading raises the input-format error `未找到一级标题（# Title）`
and produces no output file (the error is raised before the output is
assembled or written). -/
theorem C9_thm :
    ∀ (input_path content mtimeStr : List Char) (existingPdf : List (List Char))
      (meta : Metadata),
      splitextExt (input_path.map Char.toLower) = (".md").data →
      hasHeadingAux true content = false →
      (process_file input_path content mtimeStr existingPdf meta).1 =
        Except.error (("未找到一级标题（# Title）").data) := by
  intro p c m px meta hext hhead
  unfold process_file handle_markdown
  simp only [hext, hhead, if_true, if_false, Bool.false_eq_true, reduceIte]

/-- C9 witness: the theorem applied to the concrete Markdown file
`note.md` with heading-less content `hello`. -/
theorem C9_wit :
    (process_file ("note.md").data ("hello").data ("2024-01-02 03:04:05").data []
      (Metadata.mk ("t").data ("d").data [] none none none)).1 =
      Except.error (("未找到一级标题（# Title）").data) :=
  C9_thm _ _ _ _ _ (by decide) (by decide)

/-- C5 counterexample: in the text `"$\$$"` the span from index 0 to
index 3 satisfies every condition of the claim (the opening `$` is
unescaped and not before whitespace, the closing `$` is not after
whitespace and not before another `$`, and the only interior `$` is
backslash-escaped), yet the single-`$` inline pass leaves the text
unchanged: the regex body `[^$]+?` rejects every `$`, escaped or not. -/
theorem C5_counterexample :
    specInlineSpan ("$\\$$").data 0 3 ∧
    String.mk (dollarSubF standard_output_style (("$\\$$").data.length + 1) none
      ("$\\$$").data) = "$\\$$" := by
  constructor
  · refine ⟨by decide, by decide, by decide, by decide, by decide, by decide, by decide,
      by decide, ?_⟩
    decide
  · decide

/-- Soundness half of the dollar-span characterization: a successful match
decomposes the text as body, closing `$`, rest, with the regex's side
conditions. -/
theorem dollarBody_sound :
    ∀ (s body rest : List Char), dollarBody s = some (body, rest) →
      s = body ++ '$' :: rest ∧ body ≠ [] ∧ (∀ c ∈ body, c ≠ '$') ∧
      (∀ c, body.getLast? = some c → isPySpace c = false) ∧
      (∀ c, rest.head? = some c → c ≠ '$') := by
  intro s
  induction s with
  | nil => intro body rest h; simp [dollarBody] at h
  | cons c rest0 ih =>
    intro body rest h
    unfold dollarBody at h
    by_cases hc : c = '$'
    · simp [hc] at h
    · rw [if_neg hc] at h
      by_cases hh : rest0.head? = some '$'
      · rw [if_pos hh] at h
        by_cases hcond : (!isPySpace c && (rest0.drop 1).head? ≠ some '$') = true
        · rw [if_pos hcond] at h
          simp only [Option.some.injEq, Prod.mk.injEq] at h
          obtain ⟨hb, hr⟩ := h
          rw [Bool.and_eq_true] at hcond
          obtain ⟨hsp, hnd⟩ := hcond
          subst hb; subst hr
          obtain ⟨t, ht⟩ : ∃ t, rest0 = '$' :: t := by
            cases rest0 with
            | nil => simp at hh
            | cons x xs =>
              have hx : x = '$' := by simpa using hh
              exact ⟨xs, by rw [hx]⟩
          refine ⟨by simp [ht], by simp, ?_, ?_, ?_⟩
          · intro x hx; simp at hx; simpa [hx] using hc
          · intro x hx; simp at hx; subst hx; simpa using hsp
          · intro x hx hx'
            subst hx'
            exact (by simpa using hnd : ¬ (rest0.drop 1).head? = some '$') hx
        · rw [if_neg hcond] at h; exact absurd h (by simp)
      · rw [if_neg hh] at h
        rcases hd : dollarBody rest0 with _ | ⟨b, r2⟩ <;> rw [hd] at h
        · exact absurd h (by simp)
        · simp only [Option.some.injEq, Prod.mk.injEq] at h
          obtain ⟨hb, hr⟩ := h
          obtain ⟨hs0, hne, hmem, hlast, hrest⟩ := ih b r2 hd
          subst hb; subst hr
          refine ⟨by simp [hs0], by simp, ?_, ?_, hrest⟩
          · intro x hx
            rcases List.mem_cons.mp hx with hx | hx
            · subst hx; exact hc
            · exact hmem x hx
          · intro x hx
            cases b with
            | nil => exact absurd rfl hne
            | cons y ys =>
              rw [List.getLast?_cons_cons] at hx
              exact hlast x hx

/-- Completeness half of the dollar-span characterization: a text of the
matching shape is matched, and the match returns exactly the
decomposition. -/
theorem dollarBody_complete :
    ∀ (body rest : List Char), body ≠ [] → (∀ c ∈ body, c ≠ '$') →
      (∀ c, body.getLast? = some c → isPySpace c = false) →
      (∀ c, rest.head? = some c → c ≠ '$') →
      dollarBody (body ++ '$' :: rest) = some (body, rest) := by
  intro body
  induction body with
  | nil => intro rest h; exact absurd rfl h
  | cons c b ih =>
    intro rest _ hmem hlast hrest
    have hc : ¬ c = '$' := hmem c (by simp)
    cases b with
    | nil =>
      show dollarBody (c :: '$' :: rest) = some ([c], rest)
      unfold dollarBody
      rw [if_neg hc, if_pos (by simp)]
      rw [if_pos ?side]
      · simp
      case side =>
        have h1 : isPySpace c = false := hlast c rfl
        have h2 : rest.head? ≠ some '$' := by
          intro hx
          cases rest with
          | nil => simp at hx
          | cons z zs =>
            have : z = '$' := by simpa using hx
            exact hrest z rfl this
        simp [h1, h2]
    | cons y ys =>
      have hy : ¬ y = '$' := hmem y (by simp)
      show dollarBody (c :: ((y :: ys) ++ '$' :: rest)) = some (c :: y :: ys, rest)
      unfold dollarBody
      rw [if_neg hc, if_neg (by simpa using hy)]
      have hrec : dollarBody ((y :: ys) ++ '$' :: rest) = some (y :: ys, rest) := by
        refine ih rest (by simp) (fun x hx => hmem x (List.mem_cons_of_mem c hx)) ?_ hrest
        intro x hx
        refine hlast x ?_
        rw [List.getLast?_cons_cons]
        exact hx
      rw [hrec]

/-- C5 amended: the single-`$` matcher, started right after an unescaped
opening `$` not followed by whitespace, matches exactly when the remaining
text decomposes as a non-empty body containing no `$` at all (escaped or
not), then a closing `$` not preceded by whitespace and not followed by
another `$`; spans are found by a left-to-right non-overlapping scan.
Consequently the inline pass never fires across a `$$` block marker
(`"$$\na\n$$"` is unchanged) while an ordinary span such as `"$a$"` is
converted. -/
theorem C5_amended_thm :
    (∀ (s body rest : List Char),
      dollarBody s = some (body, rest) ↔
        (s = body ++ '$' :: rest ∧ body ≠ [] ∧ (∀ c ∈ body, c ≠ '$') ∧
         (∀ c, body.getLast? = some c → isPySpace c = false) ∧
         (∀ c, rest.head? = some c → c ≠ '$'))) ∧
    String.mk (dollarSubF standard_output_style (("$$\na\n$$").data.length + 1) none
      ("$$\na\n$$").data) = "$$\na\n$$" ∧
    String.mk (dollarSubF standard_output_style (("$a$").data.length + 1) none
      ("$a$").data) = "$$a$$" := by
  refine ⟨fun s body rest => ⟨fun h => dollarBody_sound s body rest h, fun h => ?_⟩,
    by decide, by decide⟩
  obtain ⟨hs, h1, h2, h3, h4⟩ := h
  subst hs
  exact dollarBody_complete body rest h1 h2 h3 h4

/-- The vertical-bar substitution is the identity on texts without `|`. -/
theorem replaceVert_id : ∀ t : List Char, '|' ∉ t → replaceVert t = t := by
  intro t
  induction t with
  | nil => intro _; rfl
  | cons c cs ih =>
    intro h
    have hc : ¬ c = '|' := fun hx => h (hx ▸ List.mem_cons_self c cs)
    unfold replaceVert
    rw [if_neg hc, ih (fun hx => h (List.mem_cons_of_mem c hx))]

/-- `slashArgAt` only fires on a leading backslash. -/
theorem slashArgAt_none : ∀ s : List Char, s.head? ≠ some '\\' → slashArgAt s = none := by
  intro s h
  unfold slashArgAt
  rw [if_neg h]

/-- The named-symbol bracing rule is the identity on texts with no bare
sub/superscript argument. -/
theorem braceSlashArgsF_id :
    ∀ (fuel : Nat) (t : List Char), noBareSub t = true → braceSlashArgsF fuel t = t := by
  intro fuel
  induction fuel with
  | zero => intro t _; rfl
  | succ fuel ih =>
    intro t h
    cases t with
    | nil => rfl
    | cons c cs =>
      unfold noBareSub at h
      rw [Bool.and_eq_true] at h
      obtain ⟨hhead, htail⟩ := h
      unfold braceSlashArgsF
      by_cases hc : (c = '_' || c = '^') = true
      · rw [if_pos hc]
        have hnb : slashArgAt cs = none := by
          refine slashArgAt_none cs ?_
          intro hx
          rw [if_pos hc] at hhead
          cases cs with
          | nil => simp at hx
          | cons d ds =>
            have hd : d = '\\' := by simpa using hx
            subst hd
            simp [bareOkAfter, isPySpace] at hhead
        rw [hnb, ih cs htail]
      · rw [if_neg hc, ih cs htail]

/-- Unfolding equation for `braceSingleArgs` on two or more characters. -/
theorem braceSingleArgs_cons_cons (c d : Char) (rest : List Char) :
    braceSingleArgs (c :: d :: rest) =
      if ((c = '_' || c = '^') &&
          !(d = '\x7b' || d = '\x7d' || d = '\\' || isPySpace d)) = true then
        c :: '\x7b' :: d :: '\x7d' :: braceSingleArgs rest
      else c :: braceSingleArgs (d :: rest) := rfl

/-- The single-character bracing rule is the identity on texts with no bare
sub/superscript argument. -/
theorem braceSingleArgs_id :
    ∀ t : List Char, noBareSub t = true → braceSingleArgs t = t := by
  intro t
  induction t with
  | nil => intro _; rfl
  | cons c t ih =>
    intro h
    unfold noBareSub at h
    rw [Bool.and_eq_true] at h
    obtain ⟨hhead, htail⟩ := h
    cases t with
    | nil => rfl
    | cons d rest =>
      rw [braceSingleArgs_cons_cons, if_neg ?_, ih htail]
      intro hcond
      rw [Bool.and_eq_true] at hcond
      obtain ⟨hc, hd⟩ := hcond
      rw [if_pos hc] at hhead
      simp only [bareOkAfter, List.head?_cons] at hhead
      simp only [Bool.not_eq_true', Bool.or_eq_false_iff] at hd
      obtain ⟨⟨⟨hd1, hd2⟩, hd3⟩, hd4⟩ := hd
      rw [Bool.or_eq_true, Bool.or_eq_true] at hhead
      rcases hhead with (h2 | h2) | h2
      · rw [hd1] at h2; exact absurd h2 (by simp)
      · rw [hd2] at h2; exact absurd h2 (by simp)
      · rw [hd4] at h2; exact absurd h2 (by simp)

/-- Unfolding equation for `squeezeSpaces` on two or more characters. -/
theorem squeezeSpaces_cons_cons (c d : Char) (rest : List Char) :
    squeezeSpaces (c :: d :: rest) =
      if (c = ' ' && d = ' ') = true then squeezeSpaces (d :: rest)
      else c :: squeezeSpaces (d :: rest) := rfl

/-- `squeezeSpaces` preserves the first character. -/
theorem squeezeSpaces_head : ∀ t : List Char, (squeezeSpaces t).head? = t.head? := by
  intro t
  induction t with
  | nil => rfl
  | cons c t ih =>
    cases t with
    | nil => rfl
    | cons d rest =>
      rw [squeezeSpaces_cons_cons]
      by_cases h : (c = ' ' && d = ' ') = true
      · rw [if_pos h]
        rw [Bool.and_eq_true] at h
        have hc : c = ' ' := by simpa using h.1
        have hd : d = ' ' := by simpa using h.2
        rw [ih]
        simp [hc, hd]
      · rw [if_neg h]; rfl

/-- Characters of `squeezeSpaces t` come from `t`. -/
theorem mem_squeezeSpaces : ∀ {c : Char} {t : List Char}, c ∈ squeezeSpaces t → c ∈ t := by
  intro c t
  induction t with
  | nil => intro h; exact h
  | cons a t ih =>
    cases t with
    | nil => intro h; exact h
    | cons d rest =>
      rw [squeezeSpaces_cons_cons]
      by_cases h : (a = ' ' && d = ' ') = true
      · rw [if_pos h]
        intro hx
        exact List.mem_cons_of_mem a (ih hx)
      · rw [if_neg h]
        intro hx
        rcases List.mem_cons.mp hx with hx | hx
        · exact hx ▸ List.mem_cons_self a _
        · exact List.mem_cons_of_mem a (ih hx)

/-- `squeezeSpaces` preserves the no-bare-argument property: it never makes
a previously separated character adjacent to a `_`/`^`. -/
theorem noBareSub_squeezeSpaces :
    ∀ t : List Char, noBareSub t = true → noBareSub (squeezeSpaces t) = true := by
  intro t
  induction t with
  | nil => intro _; rfl
  | cons c t ih =>
    intro h
    unfold noBareSub at h
    rw [Bool.and_eq_true] at h
    obtain ⟨hhead, htail⟩ := h
    cases t with
    | nil =>
      show noBareSub [c] = true
      unfold noBareSub
      rw [Bool.and_eq_true]
      exact ⟨hhead, rfl⟩
    | cons d rest =>
      rw [squeezeSpaces_cons_cons]
      by_cases hsp : (c = ' ' && d = ' ') = true
      · rw [if_pos hsp]
        exact ih htail
      · rw [if_neg hsp]
        unfold noBareSub
        rw [Bool.and_eq_true]
        refine ⟨?_, ih htail⟩
        rw [squeezeSpaces_head]
        exact hhead

/-- Consing a character that does not start a two-space run commutes with
`squeezeSpaces`. -/
theorem squeezeSpaces_cons_of :
    ∀ (c : Char) (l : List Char), ¬(c = ' ' ∧ l.head? = some ' ') →
      squeezeSpaces (c :: l) = c :: squeezeSpaces l := by
  intro c l h
  cases l with
  | nil => rfl
  | cons d rest =>
    have hcond : ¬ ((c = ' ' && d = ' ') = true) := by
      intro hx
      rw [Bool.and_eq_true] at hx
      refine h ⟨by simpa using hx.1, ?_⟩
      have hd : d = ' ' := by simpa using hx.2
      simp [hd]
    rw [squeezeSpaces_cons_cons, if_neg hcond]

/-- `squeezeSpaces` is idempotent. -/
theorem squeezeSpaces_idem :
    ∀ t : List Char, squeezeSpaces (squeezeSpaces t) = squeezeSpaces t := by
  intro t
  induction t with
  | nil => rfl
  | cons c t ih =>
    cases t with
    | nil => rfl
    | cons d rest =>
      rw [squeezeSpaces_cons_cons]
      by_cases h : (c = ' ' && d = ' ') = true
      · rw [if_pos h]; exact ih
      · rw [if_neg h]
        have hside : ¬(c = ' ' ∧ (squeezeSpaces (d :: rest)).head? = some ' ') := by
          rw [squeezeSpaces_head]
          intro hx
          obtain ⟨h1, h2⟩ := hx
          have hd : d = ' ' := by simpa using h2
          exact h (by simp [h1, hd])
        rw [squeezeSpaces_cons_of c _ hside, ih]

/-- `squeezeSpaces` only removes spaces: the non-space characters are
untouched. -/
theorem filter_squeezeSpaces :
    ∀ t : List Char, (squeezeSpaces t).filter (fun c => c ≠ ' ') =
      t.filter (fun c => c ≠ ' ') := by
  intro t
  induction t with
  | nil => rfl
  | cons c t ih =>
    cases t with
    | nil => rfl
    | cons d rest =>
      rw [squeezeSpaces_cons_cons]
      by_cases h : (c = ' ' && d = ' ') = true
      · rw [if_pos h]
        rw [Bool.and_eq_true] at h
        have hc : c = ' ' := by simpa using h.1
        rw [ih, hc]
        simp
      · rw [if_neg h]
        rw [List.filter_cons, ih]
        conv_rhs => rw [List.filter_cons]

/-- On the claim's input class the sanitizer reduces to space squeezing:
the bar substitution and both bracing rules have nothing to match. -/
theorem sanitize_eq_squeeze :
    ∀ t : List Char, '|' ∉ t → noBareSub t = true →
      sanitize_special_chars t = squeezeSpaces t := by
  intro t hp hb
  unfold sanitize_special_chars
  dsimp only
  rw [replaceVert_id t hp, braceSlashArgsF_id _ t hb, braceSingleArgs_id t hb]

/-- C3: on every input that contains no `|` and no bare `_`/`^` argument
(each `_`/`^` is followed by a brace, whitespace, or the end of the text),
the sanitizer is idempotent and touches nothing but space runs — in
particular braces are never modified; and the already-braced `x^{2}` is
returned unchanged. -/
theorem C3_thm :
    (∀ t : List Char, '|' ∉ t → noBareSub t = true →
      sanitize_special_chars (sanitize_special_chars t) = sanitize_special_chars t ∧
      (sanitize_special_chars t).filter (fun c => c ≠ ' ') =
        t.filter (fun c => c ≠ ' ')) ∧
    String.mk (sanitize_special_chars ("x^\x7b2\x7d").data) = "x^\x7b2\x7d" := by
  refine ⟨fun t hp hb => ?_, by decide⟩
  have h1 := sanitize_eq_squeeze t hp hb
  have hp2 : '|' ∉ squeezeSpaces t := fun hx => hp (mem_squeezeSpaces hx)
  have hb2 := noBareSub_squeezeSpaces t hb
  constructor
  · rw [h1, sanitize_eq_squeeze _ hp2 hb2, squeezeSpaces_idem]
  · rw [h1]; exact filter_squeezeSpaces t

/-- C3 witness: the theorem applied to the concrete sanitizer input
`"a_ b"`, which contains no `|` and no bare sub/superscript argument. -/
theorem C3_wit :
    sanitize_special_chars (sanitize_special_chars ("a_ b").data) =
      sanitize_special_chars ("a_ b").data ∧
    (sanitize_special_chars ("a_ b").data).filter (fun c => c ≠ ' ') =
      ("a_ b").data.filter (fun c => c ≠ ' ') :=
  C3_thm.1 ("a_ b").data (by decide) (by decide)

/-- The source classifier `get_level` agrees with the specification
classifier: depth of a blank line, `-1` on content lines. -/
theorem get_level_eq_spec :
    ∀ l : List Char,
      get_level l = if specIsBlank l = true then (specDepth l : Int) else -1 := by
  intro l
  unfold get_level specIsBlank specDepth
  dsimp only
  by_cases h1 : (pyStrip l).isEmpty = true
  · rw [if_pos h1]
    have he : pyStrip l = [] := by simpa using h1
    rw [if_pos (by rw [h1]; simp)]
    rw [he]
    rfl
  · rw [if_neg h1]
    have e1 : (pyStrip l).isEmpty = false := by simpa using h1
    by_cases h2 : ((pyStrip l).filter (fun c => c ≠ ' ')).all (fun c => c = '>') = true
    · rw [if_pos h2, if_pos (by rw [h2]; simp)]
    · have e2 : ((pyStrip l).filter (fun c => c ≠ ' ')).all (fun c => c = '>') = false := by
        simpa using h2
      rw [if_neg h2, if_neg (by rw [e1, e2]; simp)]

/-- Folding the integer minimum over mapped levels of blank lines computes
the natural-number minimum of the specification depths. -/
theorem foldl_min_map_cast :
    ∀ (ls : List (List Char)) (a : Nat), (∀ l ∈ ls, specIsBlank l = true) →
      (ls.map (fun l => (l, get_level l))).foldl (fun x p => min x p.2) (a : Int) =
        ((ls.foldl (fun x l => min x (specDepth l)) a : Nat) : Int) := by
  intro ls
  induction ls with
  | nil => intro a _; rfl
  | cons l ls ih =>
    intro a hall
    have hl : get_level l = (specDepth l : Int) := by
      rw [get_level_eq_spec, if_pos (hall l (by simp))]
    simp only [List.map_cons, List.foldl_cons]
    rw [hl]
    have hmin : min (a : Int) ((specDepth l : Nat) : Int) = ((min a (specDepth l) : Nat) : Int) := by
      omega
    rw [hmin, ih (min a (specDepth l)) (fun x hx => hall x (List.mem_cons_of_mem l hx))]

/-- `groupMin` over the mapped run equals the specification minimum
depth. -/
theorem groupMin_map :
    ∀ run : List (List Char), (∀ l ∈ run, specIsBlank l = true) →
      groupMin (run.map (fun l => (l, get_level l))) = (runMinDepth run : Int) := by
  intro run hall
  cases run with
  | nil => rfl
  | cons l ls =>
    unfold groupMin runMinDepth
    simp only [List.map_cons]
    have hl : get_level l = (specDepth l : Int) := by
      rw [get_level_eq_spec, if_pos (hall l (by simp))]
    show (ls.map (fun l => (l, get_level l))).foldl (fun x p => min x p.2) (get_level l) = _
    rw [hl, foldl_min_map_cast ls (specDepth l) (fun x hx => hall x (List.mem_cons_of_mem l hx))]

/-- The mid-text emission of the source equals the specification's run
line for runs ended by a content line. -/
theorem emitMid_eq_runLine :
    ∀ run : List (List Char), (∀ l ∈ run, specIsBlank l = true) →
      emitMid (run.map (fun l => (l, get_level l))) = runLine run false := by
  intro run hall
  unfold emitMid runLine
  rw [groupMin_map run hall]
  dsimp only
  by_cases h : runMinDepth run = 0
  · rw [if_pos (by rw [h]; rfl), if_pos h]
  · rw [if_neg (by rw [Int.natCast_eq_zero]; exact h), if_neg h, Int.toNat_natCast,
      if_neg (by simp)]

/-- The end-of-text emission of the source equals the specification's run
line for runs at the end of the text. -/
theorem emitEnd_eq_runLine :
    ∀ run : List (List Char), (∀ l ∈ run, specIsBlank l = true) →
      emitEnd (run.map (fun l => (l, get_level l))) = runLine run true := by
  intro run hall
  unfold emitEnd runLine
  rw [groupMin_map run hall]
  dsimp only
  by_cases h : runMinDepth run = 0
  · rw [if_pos (by rw [h]; rfl), if_pos h]
  · rw [if_neg (by rw [Int.natCast_eq_zero]; exact h), if_neg h, Int.toNat_natCast,
      if_pos rfl]

/-- `takeWhile` over an all-true block followed by a failing element keeps
exactly the block. -/
theorem takeWhile_append_all {p : List Char → Bool} :
    ∀ (G : List (List Char)) (l : List Char) (t : List (List Char)),
      (∀ x ∈ G, p x = true) → p l = false →
      (G ++ l :: t).takeWhile p = G := by
  intro G
  induction G with
  | nil =>
    intro l t _ hl
    exact List.takeWhile_cons_of_neg (by rw [hl]; simp)
  | cons g G' ih =>
    intro l t hall hl
    rw [List.cons_append, List.takeWhile_cons_of_pos (hall g (by simp)),
      ih l t (fun x hx => hall x (List.mem_cons_of_mem g hx)) hl]

/-- `dropWhile` over an all-true block followed by a failing element drops
exactly the block. -/
theorem dropWhile_append_all {p : List Char → Bool} :
    ∀ (G : List (List Char)) (l : List Char) (t : List (List Char)),
      (∀ x ∈ G, p x = true) → p l = false →
      (G ++ l :: t).dropWhile p = l :: t := by
  intro G
  induction G with
  | nil =>
    intro l t _ hl
    exact List.dropWhile_cons_of_neg (by rw [hl]; simp)
  | cons g G' ih =>
    intro l t hall hl
    rw [List.cons_append, List.dropWhile_cons_of_pos (hall g (by simp)),
      ih l t (fun x hx => hall x (List.mem_cons_of_mem g hx)) hl]

/-- `specMergeLines` on the empty line list. -/
theorem specMergeLines_nil : specMergeLines [] = [] := by
  unfold specMergeLines
  rfl

/-- `specMergeLines` passes a content line through. -/
theorem specMergeLines_cons_content :
    ∀ (l : List Char) (ls : List (List Char)), specIsBlank l = false →
      specMergeLines (l :: ls) = l :: specMergeLines ls := by
  intro l ls h
  conv_lhs => unfold specMergeLines
  rw [if_neg (by rw [h]; simp)]

/-- `specMergeLines` on an all-blank text emits the single end-of-text run
line. -/
theorem specMergeLines_blank_end :
    ∀ G : List (List Char), G ≠ [] → (∀ l ∈ G, specIsBlank l = true) →
      specMergeLines G = [runLine G true] := by
  intro G hne hall
  cases G with
  | nil => exact absurd rfl hne
  | cons g G' =>
    have hg : specIsBlank g = true := hall g (by simp)
    have hdw : (g :: G').dropWhile specIsBlank = [] := by
      rw [List.dropWhile_eq_nil_iff]
      exact hall
    have htw : (g :: G').takeWhile specIsBlank = g :: G' := by
      rw [List.takeWhile_eq_self_iff]
      exact hall
    conv_lhs => unfold specMergeLines
    rw [if_pos hg]
    split
    next heq => rw [htw]
    next r rs heq =>
      rw [hdw] at heq
      exact absurd heq (by simp)

/-- `specMergeLines` on a non-empty blank run followed by a content line
emits the mid-text run line, the content line, and continues. -/
theorem specMergeLines_blank_mid :
    ∀ (G : List (List Char)) (l : List Char) (ls : List (List Char)),
      G ≠ [] → (∀ x ∈ G, specIsBlank x = true) → specIsBlank l = false →
      specMergeLines (G ++ l :: ls) = runLine G false :: l :: specMergeLines ls := by
  intro G l ls hne hall hl
  cases G with
  | nil => exact absurd rfl hne
  | cons g G' =>
    have hg : specIsBlank g = true := hall g (by simp)
    have hdw : ((g :: G') ++ l :: ls).dropWhile specIsBlank = l :: ls :=
      dropWhile_append_all (g :: G') l ls hall hl
    have htw : ((g :: G') ++ l :: ls).takeWhile specIsBlank = g :: G' :=
      takeWhile_append_all (g :: G') l ls hall hl
    rw [List.cons_append]
    conv_lhs => unfold specMergeLines
    rw [if_pos hg]
    rw [← List.cons_append]
    split
    next heq =>
      rw [hdw] at heq
      exact absurd heq (by simp)
    next r rs heq =>
      rw [hdw] at heq
      rw [List.cons.injEq] at heq
      obtain ⟨h1, h2⟩ := heq
      rw [htw, h1, h2]

/-- The merger's line loop with pending blank lines `G` computes the
specification merge of `G` followed by the remaining lines. -/
theorem mergeLoop_eq_spec :
    ∀ (ls G : List (List Char)), (∀ l ∈ G, specIsBlank l = true) →
      mergeLoop ls (G.map (fun l => (l, get_level l))) = specMergeLines (G ++ ls) := by
  intro ls
  induction ls with
  | nil =>
    intro G hG
    rw [List.append_nil]
    cases G with
    | nil => rw [specMergeLines_nil]; rfl
    | cons g G' =>
      rw [specMergeLines_blank_end (g :: G') (by simp) hG]
      show (if ((g :: G').map (fun l => (l, get_level l))).isEmpty = true then []
        else [emitEnd ((g :: G').map (fun l => (l, get_level l)))]) = _
      rw [if_neg (by simp), emitEnd_eq_runLine (g :: G') hG]
  | cons l ls' ih =>
    intro G hG
    by_cases hl : specIsBlank l = true
    · have hlv : 0 ≤ get_level l := by
        rw [get_level_eq_spec, if_pos hl]
        exact Int.natCast_nonneg _
      show (if 0 ≤ get_level l then
          mergeLoop ls' (G.map (fun l => (l, get_level l)) ++ [(l, get_level l)])
        else _) = _
      rw [if_pos hlv]
      have hGl : G.map (fun l => (l, get_level l)) ++ [(l, get_level l)] =
          (G ++ [l]).map (fun l => (l, get_level l)) := by
        rw [List.map_append]
        rfl
      rw [hGl, ih (G ++ [l]) ?_]
      · rw [List.append_assoc]
        rfl
      · intro x hx
        rcases List.mem_append.mp hx with hx | hx
        · exact hG x hx
        · rw [List.mem_singleton.mp hx]
          exact hl
    · have hl' : specIsBlank l = false := by
        cases h : specIsBlank l
        · rfl
        · exact absurd h hl
      have hlv : ¬ (0 ≤ get_level l) := by
        rw [get_level_eq_spec, if_neg (by rw [hl']; simp)]
        omega
      show (if 0 ≤ get_level l then _
        else (if (G.map (fun l => (l, get_level l))).isEmpty = true then []
          else [emitMid (G.map (fun l => (l, get_level l)))]) ++
          l :: mergeLoop ls' []) = _
      rw [if_neg hlv]
      have hrec : mergeLoop ls' ([] : List (List Char × Int)) = specMergeLines ls' := by
        have := ih [] (by simp)
        simpa using this
      cases G with
      | nil =>
        rw [List.nil_append, specMergeLines_cons_content l ls' hl']
        show ([] : List (List Char)) ++ l :: mergeLoop ls' [] = _
        rw [List.nil_append, hrec]
      | cons g G' =>
        rw [specMergeLines_blank_mid (g :: G') l ls' (by simp) hG hl']
        rw [if_neg (by simp), emitMid_eq_runLine (g :: G') hG, hrec]
        rfl

/-- C2 counterexample: the single-line quote-blank run `">>"` (depth 2)
followed by content collapses to the line `"> >"` — two `>` separated by a
space — and not to the claimed two repetitions of `>` (`">>"`). -/
theorem C2_counterexample :
    String.mk (merge_consecutive_empty_lines ((">>\na").data)) = "> >\na" ∧
    String.mk (merge_consecutive_empty_lines ((">>\na").data)) ≠ ">>\na" := by
  constructor
  · decide
  · decide

/-- C2 amended: the merger groups maximal runs of consecutive lines that
are each whitespace-only or consist solely of `>` characters (optionally
space-separated), mixing the two kinds freely, and replaces each run with
exactly one line: the empty string if any line of the run has quote depth
0, and otherwise a quote-blank line of the minimum depth observed in the
run — rendered as `"> "` repeated `min` times and stripped for runs ended
by a content line, and as `min` repetitions of `>` for a run at the end of
the text.  In particular the three consecutive lines `">"`, `"> >"`, `""`
collapse to a single plain empty line. -/
theorem C2_amended_thm :
    (∀ ls : List (List Char), mergeLoop ls [] = specMergeLines ls) ∧
    String.mk (merge_consecutive_empty_lines ((">\n> >\n").data)) = "" ∧
    String.mk (merge_consecutive_empty_lines (("a\n>\n> >\n\nb").data)) = "a\n\nb" := by
  refine ⟨fun ls => ?_, by decide, by decide⟩
  have := mergeLoop_eq_spec ls [] (by simp)
  simpa using this

/-- A token whose first character differs from the text's first character
is not a prefix. -/
theorem isPrefixOf_cons_cons_ne (x c : Char) (ts t : List Char) (h : (x == c) = false) :
    List.isPrefixOf (x :: ts) (c :: t) = false := by
  rw [List.isPrefixOf_cons₂, h, Bool.false_and]

/-- Unfolding equation for `tryEnds`. -/
theorem tryEnds_cons (tok : List Char) (toks : List (List Char)) (s : List Char) :
    tryEnds (tok :: toks) s =
      if tok.isPrefixOf s then
        match blockTail (s.drop tok.length) with
        | some (g5, rest) => some (g5, rest)
        | none => tryEnds toks s
      else tryEnds toks s := rfl

/-- Unfolding equation for `tryBegins`. -/
theorem tryBegins_cons (tok : List Char) (toks : List (List Char)) (s : List Char) :
    tryBegins (tok :: toks) s =
      if tok.isPrefixOf s then
        match blockBody (s.length + 1) [] (s.drop tok.length) with
        | some r => some r
        | none => tryBegins toks s
      else tryBegins toks s := rfl

/-- Unfolding equation for `blockBody` with positive fuel. -/
theorem blockBody_succ (fuel : Nat) (acc s : List Char) :
    blockBody (fuel + 1) acc s =
      match tryEnds blockEndToks s with
      | some (g5, rest) => some (acc, g5, rest)
      | none =>
          match s with
          | [] => none
          | c :: s2 => blockBody fuel (acc ++ [c]) s2 := rfl

/-- Unfolding equation for `matchBlockAt`. -/
theorem matchBlockAt_eq (s : List Char) :
    matchBlockAt s =
      match tryBegins blockBeginToks ((s.dropWhile isQuoteSp).dropWhile isPySpace) with
      | some (body, g5, rest) => some (s.takeWhile isQuoteSp, body, g5, rest)
      | none => none := rfl

/-- Unfolding equation for the scan walker with positive fuel on a
non-empty text. -/
theorem blockSubF_cons (style : OutputStyle) (fuel : Nat) (atLS : Bool) (c : Char)
    (rest : List Char) :
    blockSubF style (fuel + 1) atLS (c :: rest) =
      match (if atLS then matchBlockAt (c :: rest) else none) with
      | some (g1, body, g5, rest2) =>
          replace_block style g1 body g5 ++ blockSubF style fuel (!g5.isEmpty) rest2
      | none => c :: blockSubF style fuel (c = '\n') rest := rfl

/-- Peeling one failing alternative off the end-token alternation. -/
theorem tryEnds_cons_neg :
    ∀ (tok : List Char) (toks : List (List Char)) (s : List Char),
      tok.isPrefixOf s = false → tryEnds (tok :: toks) s = tryEnds toks s := by
  intro tok toks s h
  rw [tryEnds_cons, if_neg (by rw [h]; simp)]

/-- Peeling one failing alternative off the begin-token alternation. -/
theorem tryBegins_cons_neg :
    ∀ (tok : List Char) (toks : List (List Char)) (s : List Char),
      tok.isPrefixOf s = false → tryBegins (tok :: toks) s = tryBegins toks s := by
  intro tok toks s h
  rw [tryBegins_cons, if_neg (by rw [h]; simp)]

/-- The begin/end token lists as explicit character lists. -/
theorem blockEndToks_eq :
    blockEndToks = [['\\', 'e', 'n', 'd', '\x7b', 'e', 'q', 'u', 'a', 't', 'i', 'o', 'n',
      '*', '\x7d'], ['\\', ']'], ['$', '$'], ['$', '$', '$']] := rfl

theorem blockBeginToks_eq :
    blockBeginToks = [['\\', 'b', 'e', 'g', 'i', 'n', '\x7b', 'e', 'q', 'u', 'a', 't',
      'i', 'o', 'n', '*', '\x7d'], ['\\', '['], ['$', '$'], ['$', '$', '$']] := rfl

/-- No end token matches at a character that is neither a backslash nor a
dollar. -/
theorem tryEnds_not_delim :
    ∀ (c : Char) (s : List Char), c ≠ '\\' → c ≠ '$' →
      tryEnds blockEndToks (c :: s) = none := by
  intro c s h1 h2
  have e1 : (('\\' : Char) == c) = false := by
    rw [beq_eq_false_iff_ne]; exact fun hx => h1 hx.symm
  have e2 : (('$' : Char) == c) = false := by
    rw [beq_eq_false_iff_ne]; exact fun hx => h2 hx.symm
  rw [blockEndToks_eq,
    tryEnds_cons_neg _ _ _ (isPrefixOf_cons_cons_ne _ _ _ _ e1),
    tryEnds_cons_neg _ _ _ (isPrefixOf_cons_cons_ne _ _ _ _ e1),
    tryEnds_cons_neg _ _ _ (isPrefixOf_cons_cons_ne _ _ _ _ e2),
    tryEnds_cons_neg _ _ _ (isPrefixOf_cons_cons_ne _ _ _ _ e2)]
  rfl

/-- No end token matches at a dollar followed by a non-dollar: the
double-dollar tokens fail on their second character. -/
theorem tryEnds_dollar_nondollar :
    ∀ (d : Char) (s : List Char), d ≠ '$' →
      tryEnds blockEndToks ('$' :: d :: s) = none := by
  intro d s hd
  have e1 : (('\\' : Char) == '$') = false := by decide
  have hd' : (('$' : Char) == d) = false := by
    rw [beq_eq_false_iff_ne]; exact fun hx => hd hx.symm
  have e2 : List.isPrefixOf ['$', '$'] ('$' :: d :: s) = false := by
    rw [List.isPrefixOf_cons₂, List.isPrefixOf_cons₂, hd']
    simp
  have e3 : List.isPrefixOf ['$', '$', '$'] ('$' :: d :: s) = false := by
    rw [List.isPrefixOf_cons₂, List.isPrefixOf_cons₂, hd']
    simp
  rw [blockEndToks_eq,
    tryEnds_cons_neg _ _ _ (isPrefixOf_cons_cons_ne _ _ _ _ e1),
    tryEnds_cons_neg _ _ _ (isPrefixOf_cons_cons_ne _ _ _ _ e1),
    tryEnds_cons_neg _ _ _ e2, tryEnds_cons_neg _ _ _ e3]
  rfl

/-- The lazy body search walks over delimiter-free characters, collecting
them into the body, and closes on the final `$$$` followed by a newline. -/
theorem blockBody_benign :
    ∀ (pre acc : List Char) (fuel : Nat),
      (∀ c ∈ pre, c ≠ '$' ∧ c ≠ '\\' ∧ isPySpace c = false) →
      pre.length + 1 ≤ fuel →
      blockBody fuel acc (pre ++ ("$$$\n").data) = some (acc ++ pre, ['\n'], []) := by
  intro pre
  induction pre with
  | nil =>
    intro acc fuel _ hf
    cases fuel with
    | zero => omega
    | succ f =>
      show blockBody (f + 1) acc (("$$$\n").data) = some (acc ++ [], ['\n'], [])
      rw [blockBody_succ,
        show tryEnds blockEndToks (("$$$\n").data) = some (['\n'], []) from by decide,
        List.append_nil]
  | cons c pre' ih =>
    intro acc fuel hall fuelh
    cases fuel with
    | zero => simp at fuelh
    | succ f =>
      obtain ⟨hc1, hc2, _⟩ := hall c (by simp)
      show blockBody (f + 1) acc (c :: (pre' ++ ("$$$\n").data)) = _
      rw [blockBody_succ, tryEnds_not_delim c _ hc2 hc1]
      show blockBody f (acc ++ [c]) (pre' ++ ("$$$\n").data) = some (acc ++ c :: pre', ['\n'], [])
      rw [ih (acc ++ [c]) f (fun x hx => hall x (List.mem_cons_of_mem c hx)) (by simpa using fuelh)]
      rw [List.append_assoc]
      rfl

/-- On `$` followed by a benign body and the closing `$$$` with newline,
the body search captures the `$` and the body. -/
theorem blockBody_dollar_body :
    ∀ (body acc : List Char) (fuel : Nat), body ≠ [] →
      (∀ c ∈ body, c ≠ '$' ∧ c ≠ '\\' ∧ isPySpace c = false) →
      body.length + 2 ≤ fuel →
      blockBody fuel acc ('$' :: (body ++ ("$$$\n").data)) =
        some (acc ++ '$' :: body, ['\n'], []) := by
  intro body acc fuel hne hall hf
  cases fuel with
  | zero => omega
  | succ f =>
    cases body with
    | nil => exact absurd rfl hne
    | cons b bs =>
      obtain ⟨hb, _, _⟩ := hall b (by simp)
      show blockBody (f + 1) acc ('$' :: (b :: (bs ++ ("$$$\n").data))) = _
      rw [blockBody_succ, tryEnds_dollar_nondollar b _ hb]
      show blockBody f (acc ++ ['$']) ((b :: bs) ++ ("$$$\n").data) = _
      rw [blockBody_benign (b :: bs) (acc ++ ['$']) f hall (by simp at hf ⊢; omega)]
      rw [List.append_assoc]
      rfl

/-- The block pattern matches a whole `$$$body$$$` region at its start:
the opening token is the preferred `$$` alternative, the body picks up the
third `$`, and the closing token is the `$$$` alternative (the `$$`
alternative fails its tail there). -/
theorem matchBlockAt_tripledollar :
    ∀ body : List Char, body ≠ [] →
      (∀ c ∈ body, c ≠ '$' ∧ c ≠ '\\' ∧ isPySpace c = false) →
      matchBlockAt ('$' :: '$' :: '$' :: (body ++ ("$$$\n").data)) =
        some ([], '$' :: body, ['\n'], []) := by
  intro body hne hall
  rw [matchBlockAt_eq]
  have hq : isQuoteSp '$' = false := by decide
  have hp : isPySpace '$' = false := by decide
  rw [List.takeWhile_cons_of_neg (by rw [hq]; simp),
    List.dropWhile_cons_of_neg (by rw [hq]; simp),
    List.dropWhile_cons_of_neg (by rw [hp]; simp)]
  rw [blockBeginToks_eq]
  have e1 : (('\\' : Char) == '$') = false := by decide
  rw [tryBegins_cons_neg _ _ _ (isPrefixOf_cons_cons_ne _ _ _ _ e1),
    tryBegins_cons_neg _ _ _ (isPrefixOf_cons_cons_ne _ _ _ _ e1)]
  rw [tryBegins_cons,
    if_pos (by rw [List.isPrefixOf_cons₂, List.isPrefixOf_cons₂]; simp)]
  have hdrop : ('$' :: '$' :: '$' :: (body ++ ("$$$\n").data)).drop
      (['$', '$'] : List Char).length = '$' :: (body ++ ("$$$\n").data) := rfl
  rw [hdrop]
  rw [blockBody_dollar_body body [] _ hne hall
    (by simp only [List.length_cons, List.length_append]; omega)]
  rfl

/-- The scan walker returns the empty text on empty input for every
fuel. -/
theorem blockSubF_nil :
    ∀ (style : OutputStyle) (fuel : Nat) (b : Bool), blockSubF style fuel b [] = [] := by
  intro style fuel b
  cases fuel with
  | zero => rfl
  | succ f => rfl

/-- C7: `$$$` is among the region-opening delimiter tokens of the block
pattern, and a whole `$$$body$$$` region (for a non-empty body free of
dollars, backslashes and whitespace) followed by a newline is replaced by
one canonical begin/body/end block: the opening and closing tokens are
matched positionally (the opener is the `$$` alternative, the closer the
`$$$` alternative — not the textually symmetric pair), and the captured
body is `$` followed by the written body. -/
theorem C7_thm :
    ("$$$").data ∈ blockBeginToks ∧
    ∀ body : List Char, body ≠ [] →
      (∀ c ∈ body, c ≠ '$' ∧ c ≠ '\\' ∧ isPySpace c = false) →
      convert_block_math standard_output_style
          (("$$$").data ++ (body ++ ("$$$\n").data)) =
        ("\n$$").data ++ (sanitize_special_chars ('$' :: body) ++ ("$$\n\n").data) := by
  constructor
  · decide
  · intro body hne hall
    unfold convert_block_math
    show blockSubF standard_output_style
      (('$' :: '$' :: '$' :: (body ++ ("$$$\n").data)).length + 1) true
      ('$' :: '$' :: '$' :: (body ++ ("$$$\n").data)) = _
    rw [blockSubF_cons]
    rw [show (if true then matchBlockAt ('$' :: '$' :: '$' :: (body ++ ("$$$\n").data))
        else none) = matchBlockAt ('$' :: '$' :: '$' :: (body ++ ("$$$\n").data)) from rfl]
    rw [matchBlockAt_tripledollar body hne hall]
    show replace_block standard_output_style [] ('$' :: body) ['\n'] ++
      blockSubF standard_output_style _ _ [] = _
    rw [blockSubF_nil, List.append_nil]
    unfold replace_block
    simp [standard_output_style, pyStrip]

/-- C7 witness: the theorem applied to the concrete body `x`, i.e. the
text `"$$$x$$$\n"`. -/
theorem C7_wit :
    convert_block_math standard_output_style
        (("$$$").data ++ ((['x'] : List Char) ++ ("$$$\n").data)) =
      ("\n$$").data ++ (sanitize_special_chars ('$' :: ['x']) ++ ("$$\n\n").data) :=
  C7_thm.2 ['x'] (by decide) (by decide)

/-- A suffix is an infix. -/
theorem infix_of_sfx {l₁ l₂ : List Char} (h : l₁ <:+ l₂) : l₁ <:+: l₂ := by
  obtain ⟨t, ht⟩ := h
  exact ⟨t, [], by rw [List.append_nil]; exact ht⟩

/-- A prefix (as a relation) is an infix. -/
theorem infix_of_pfx {l₁ l₂ : List Char} (h : l₁ <+: l₂) : l₁ <:+: l₂ := by
  obtain ⟨t, ht⟩ := h
  exact ⟨[], t, by rw [List.nil_append]; exact ht⟩

/-- A newline-free prefix of `A ++ '\n' :: B` is a prefix of `A`. -/
theorem pfx_nl_split :
    ∀ (A B P : List Char), '\n' ∉ P → P <+: A ++ '\n' :: B → P <+: A := by
  intro A
  induction A with
  | nil =>
    intro B P hP h
    cases P with
    | nil => exact List.nil_prefix
    | cons q Q =>
      rw [List.nil_append, List.cons_prefix_cons] at h
      refine absurd ?_ hP
      rw [← h.1]
      exact List.mem_cons_self q Q
  | cons a A' ih =>
    intro B P hP h
    cases P with
    | nil => exact List.nil_prefix
    | cons q Q =>
      rw [List.cons_append, List.cons_prefix_cons] at h
      rw [List.cons_prefix_cons]
      exact ⟨h.1, ih B Q (fun hx => hP (List.mem_cons_of_mem q hx)) h.2⟩

/-- A newline-free infix of `A ++ '\n' :: B` lies in `A` or in `B`. -/
theorem infix_nl_split :
    ∀ (A B P : List Char), '\n' ∉ P → P <:+: A ++ '\n' :: B → P <:+: A ∨ P <:+: B := by
  intro A
  induction A with
  | nil =>
    intro B P hP h
    rw [List.nil_append, List.infix_cons_iff] at h
    rcases h with h | h
    · cases P with
      | nil => exact Or.inl List.nil_infix
      | cons q Q =>
        rw [List.cons_prefix_cons] at h
        refine absurd ?_ hP
        rw [← h.1]
        exact List.mem_cons_self q Q
    · exact Or.inr h
  | cons a A' ih =>
    intro B P hP h
    rw [List.cons_append, List.infix_cons_iff] at h
    rcases h with h | h
    · left
      cases P with
      | nil => exact List.nil_infix
      | cons q Q =>
        rw [List.cons_prefix_cons] at h
        have hq := pfx_nl_split A' B Q (fun hx => hP (List.mem_cons_of_mem q hx)) h.2
        refine infix_of_pfx ?_
        rw [List.cons_prefix_cons]
        exact ⟨h.1, hq⟩
    · rcases ih B P hP h with h' | h'
      · exact Or.inl (List.infix_cons h')
      · exact Or.inr h'

/-- A non-empty newline-free infix of the joined lines lies inside one of
the lines. -/
theorem infix_joinNl :
    ∀ (lines : List (List Char)) (P : List Char), '\n' ∉ P → P ≠ [] →
      P <:+: joinNl lines → ∃ l ∈ lines, P <:+: l := by
  intro lines
  induction lines with
  | nil =>
    intro P _ hne h
    rw [show joinNl [] = [] from rfl, List.infix_nil] at h
    exact absurd h hne
  | cons l ls ih =>
    intro P hP hne h
    cases ls with
    | nil => exact ⟨l, by simp, h⟩
    | cons l2 rest =>
      rw [show joinNl (l :: l2 :: rest) = l ++ '\n' :: joinNl (l2 :: rest) from rfl] at h
      rcases infix_nl_split l (joinNl (l2 :: rest)) P hP h with h' | h'
      · exact ⟨l, by simp, h'⟩
      · obtain ⟨l', hl', hli⟩ := ih P hP hne h'
        exact ⟨l', List.mem_cons_of_mem l hl', hli⟩

/-- Unfolding equation for `collapseNlF` with positive fuel. -/
theorem collapseNlF_cons (fuel : Nat) (c : Char) (rest : List Char) :
    collapseNlF (fuel + 1) (c :: rest) =
      if c = '\n' && rest.head? = some '\n' then
        '\n' :: '\n' :: collapseNlF fuel ((rest.drop 1).dropWhile (fun x => x = '\n'))
      else c :: collapseNlF fuel rest := rfl

/-- A newline-free prefix of the newline-collapsed text is a prefix of the
text. -/
theorem pfx_collapseNlF :
    ∀ (fuel : Nat) (s P : List Char), '\n' ∉ P → P <+: collapseNlF fuel s → P <+: s := by
  intro fuel
  induction fuel with
  | zero => intro s P _ h; exact h
  | succ f ih =>
    intro s P hP h
    cases s with
    | nil => exact h
    | cons c rest =>
      rw [collapseNlF_cons] at h
      by_cases hc : (c = '\n' && rest.head? = some '\n') = true
      · rw [if_pos hc] at h
        cases P with
        | nil => exact List.nil_prefix
        | cons q Q =>
          rw [List.cons_prefix_cons] at h
          refine absurd ?_ hP
          rw [← h.1]
          exact List.mem_cons_self q Q
      · rw [if_neg hc] at h
        cases P with
        | nil => exact List.nil_prefix
        | cons q Q =>
          rw [List.cons_prefix_cons] at h ⊢
          exact ⟨h.1, ih rest Q (fun hx => hP (List.mem_cons_of_mem q hx)) h.2⟩

/-- A newline-free infix of the newline-collapsed text is an infix of the
text. -/
theorem infix_collapseNlF :
    ∀ (fuel : Nat) (s P : List Char), '\n' ∉ P → P <:+: collapseNlF fuel s → P <:+: s := by
  intro fuel
  induction fuel with
  | zero => intro s P _ h; exact h
  | succ f ih =>
    intro s P hP h
    cases s with
    | nil => exact h
    | cons c rest =>
      rw [collapseNlF_cons] at h
      by_cases hc : (c = '\n' && rest.head? = some '\n') = true
      · rw [if_pos hc] at h
        rw [List.infix_cons_iff] at h
        rcases h with h | h
        · cases P with
          | nil => exact List.nil_infix
          | cons q Q =>
            rw [List.cons_prefix_cons] at h
            refine absurd ?_ hP
            rw [← h.1]
            exact List.mem_cons_self q Q
        · rw [List.infix_cons_iff] at h
          rcases h with h | h
          · cases P with
            | nil => exact List.nil_infix
            | cons q Q =>
              rw [List.cons_prefix_cons] at h
              refine absurd ?_ hP
              rw [← h.1]
              exact List.mem_cons_self q Q
          · have h2 := ih _ P hP h
            have hsfx : ((rest.drop 1).dropWhile (fun x => x = '\n')) <:+ (c :: rest) :=
              ((List.dropWhile_suffix _).trans (List.drop_suffix 1 rest)).trans
                (List.suffix_cons c rest)
            exact h2.trans (infix_of_sfx hsfx)
      · rw [if_neg hc] at h
        rw [List.infix_cons_iff] at h
        rcases h with h | h
        · cases P with
          | nil => exact List.nil_infix
          | cons q Q =>
            rw [List.cons_prefix_cons] at h
            refine infix_of_pfx ?_
            rw [List.cons_prefix_cons]
            exact ⟨h.1, pfx_collapseNlF f rest Q (fun hx => hP (List.mem_cons_of_mem q hx)) h.2⟩
        · exact List.infix_cons (ih rest P hP h)

/-- Characters of the newline-collapsed text come from the text. -/
theorem mem_collapseNlF :
    ∀ (fuel : Nat) (s : List Char) (c : Char), c ∈ collapseNlF fuel s → c ∈ s := by
  intro fuel
  induction fuel with
  | zero => intro s c h; exact h
  | succ f ih =>
    intro s c h
    cases s with
    | nil => exact h
    | cons d rest =>
      rw [collapseNlF_cons] at h
      by_cases hc : (d = '\n' && rest.head? = some '\n') = true
      · rw [if_pos hc] at h
        rw [Bool.and_eq_true] at hc
        have hd : d = '\n' := by simpa using hc.1
        rcases List.mem_cons.mp h with h | h
        · rw [h, hd]
          exact List.mem_cons_self _ _
        · rcases List.mem_cons.mp h with h | h
          · rw [h, hd]
            exact List.mem_cons_self _ _
          · have h2 := ih _ c h
            have h3 : c ∈ rest :=
              (List.drop_sublist 1 rest).subset ((List.dropWhile_sublist _).subset h2)
            exact List.mem_cons_of_mem d h3
      · rw [if_neg hc] at h
        rcases List.mem_cons.mp h with h | h
        · rw [h]
          exact List.mem_cons_self d rest
        · exact List.mem_cons_of_mem d (ih rest c h)

/-- Characters of the joined lines are newlines or come from a line. -/
theorem mem_joinNl :
    ∀ (lines : List (List Char)) (c : Char), c ∈ joinNl lines →
      c = '\n' ∨ ∃ l ∈ lines, c ∈ l := by
  intro lines
  induction lines with
  | nil => intro c h; exact absurd h (by simp [joinNl])
  | cons l ls ih =>
    intro c h
    cases ls with
    | nil => exact Or.inr ⟨l, by simp, by simpa [joinNl] using h⟩
    | cons l2 rest =>
      rw [show joinNl (l :: l2 :: rest) = l ++ '\n' :: joinNl (l2 :: rest) from rfl] at h
      rcases List.mem_append.mp h with h | h
      · exact Or.inr ⟨l, by simp, h⟩
      · rcases List.mem_cons.mp h with h | h
        · exact Or.inl h
        · rcases ih c h with h' | ⟨l', hl', hc'⟩
          · exact Or.inl h'
          · exact Or.inr ⟨l', List.mem_cons_of_mem l hl', hc'⟩

/-- Characters of the stripped text come from the text. -/
theorem mem_pyStrip {c : Char} {l : List Char} (h : c ∈ pyStrip l) : c ∈ l := by
  unfold pyStrip at h
  rw [List.mem_reverse] at h
  have h2 := (List.dropWhile_sublist _).subset h
  rw [List.mem_reverse] at h2
  exact (List.dropWhile_sublist _).subset h2

/-- The lines emitted for blank runs consist of `>` and spaces only. -/
theorem emitMid_quote_chars :
    ∀ (g : List (List Char × Int)) (x : Char), x ∈ emitMid g → x = '>' ∨ x = ' ' := by
  intro g x h
  unfold emitMid at h
  by_cases hm : groupMin g = 0
  · rw [if_pos hm] at h
    exact absurd h (by simp)
  · rw [if_neg hm] at h
    have h2 := mem_pyStrip h
    rw [List.mem_flatten] at h2
    obtain ⟨l, hl, hx⟩ := h2
    rw [List.eq_of_mem_replicate hl] at hx
    rcases List.mem_cons.mp hx with hx | hx
    · exact Or.inl hx
    · exact Or.inr (by simpa using hx)

theorem emitEnd_quote_chars :
    ∀ (g : List (List Char × Int)) (x : Char), x ∈ emitEnd g → x = '>' ∨ x = ' ' := by
  intro g x h
  unfold emitEnd at h
  by_cases hm : groupMin g = 0
  · rw [if_pos hm] at h
    exact absurd h (by simp)
  · rw [if_neg hm] at h
    exact Or.inl (List.eq_of_mem_replicate h)

/-- Unfolding equations for `mergeLoop`. -/
theorem mergeLoop_nil (g : List (List Char × Int)) :
    mergeLoop [] g = if g.isEmpty then [] else [emitEnd g] := rfl

theorem mergeLoop_cons (l : List Char) (ls : List (List Char)) (g : List (List Char × Int)) :
    mergeLoop (l :: ls) g =
      if 0 ≤ get_level l then mergeLoop ls (g ++ [(l, get_level l)])
      else (if g.isEmpty then [] else [emitMid g]) ++ l :: mergeLoop ls [] := rfl

/-- Every output line of the merge loop is an input line or a quote-blank
line made of `>` and spaces. -/
theorem mergeLoop_line_cases :
    ∀ (ls : List (List Char)) (g : List (List Char × Int)) (l : List Char),
      l ∈ mergeLoop ls g → l ∈ ls ∨ (∀ x ∈ l, x = '>' ∨ x = ' ') := by
  intro ls
  induction ls with
  | nil =>
    intro g l h
    rw [mergeLoop_nil] at h
    by_cases hg : g.isEmpty = true
    · rw [if_pos hg] at h
      exact absurd h (by simp)
    · rw [if_neg hg] at h
      rw [List.mem_singleton] at h
      subst h
      exact Or.inr (emitEnd_quote_chars g)
  | cons l0 ls' ih =>
    intro g l h
    rw [mergeLoop_cons] at h
    by_cases hl : 0 ≤ get_level l0
    · rw [if_pos hl] at h
      rcases ih _ l h with h' | h'
      · exact Or.inl (List.mem_cons_of_mem l0 h')
      · exact Or.inr h'
    · rw [if_neg hl] at h
      rcases List.mem_append.mp h with h' | h'
      · by_cases hg : g.isEmpty = true
        · rw [if_pos hg] at h'
          exact absurd h' (by simp)
        · rw [if_neg hg] at h'
          rw [List.mem_singleton] at h'
          subst h'
          exact Or.inr (emitMid_quote_chars g)
      · rcases List.mem_cons.mp h' with h'' | h''
        · subst h''
          exact Or.inl (List.mem_cons_self _ _)
        · rcases ih [] l h'' with h3 | h3
          · exact Or.inl (List.mem_cons_of_mem l0 h3)
          · exact Or.inr h3

/-- `splitNl` never returns an empty list of lines. -/
theorem splitNl_ne_nil : ∀ s : List Char, splitNl s ≠ [] := by
  intro s
  cases s with
  | nil => simp [splitNl]
  | cons c rest =>
    unfold splitNl
    by_cases hc : c = '\n'
    · rw [if_pos hc]
      simp
    · rw [if_neg hc]
      cases splitNl rest with
      | nil => simp
      | cons l ls => simp

/-- Unfolding equation for `splitNl` on a non-empty text. -/
theorem splitNl_cons (c : Char) (rest : List Char) :
    splitNl (c :: rest) =
      if c = '\n' then [] :: splitNl rest
      else
        match splitNl rest with
        | l :: ls => (c :: l) :: ls
        | [] => [[c]] := rfl

/-- The first line returned by `splitNl` is a newline-free prefix of the
text. -/
theorem head_splitNl :
    ∀ (s L : List Char) (LS : List (List Char)), splitNl s = L :: LS →
      L <+: s ∧ '\n' ∉ L := by
  intro s
  induction s with
  | nil =>
    intro L LS h
    rw [show splitNl [] = [[]] from rfl, List.cons.injEq] at h
    obtain ⟨h1, _⟩ := h
    rw [← h1]
    exact ⟨List.nil_prefix, by simp⟩
  | cons c rest ih =>
    intro L LS h
    rw [splitNl_cons] at h
    by_cases hc : c = '\n'
    · rw [if_pos hc, List.cons.injEq] at h
      obtain ⟨h1, _⟩ := h
      rw [← h1]
      exact ⟨List.nil_prefix, by simp⟩
    · rw [if_neg hc] at h
      cases heq : splitNl rest with
      | nil => exact absurd heq (splitNl_ne_nil rest)
      | cons L' LS' =>
        rw [heq, List.cons.injEq] at h
        obtain ⟨h1, _⟩ := h
        obtain ⟨hpfx, hnl⟩ := ih L' LS' heq
        rw [← h1]
        constructor
        · rw [List.cons_prefix_cons]
          exact ⟨rfl, hpfx⟩
        · intro hx
          rcases List.mem_cons.mp hx with hx | hx
          · exact hc hx.symm
          · exact hnl hx

/-- Every line returned by `splitNl` is a newline-free infix of the
text. -/
theorem mem_splitNl :
    ∀ (s l : List Char), l ∈ splitNl s → l <:+: s ∧ '\n' ∉ l := by
  intro s
  induction s with
  | nil =>
    intro l h
    rw [show splitNl [] = [[]] from rfl, List.mem_singleton] at h
    subst h
    exact ⟨List.nil_infix, by simp⟩
  | cons c rest ih =>
    intro l h
    rw [splitNl_cons] at h
    by_cases hc : c = '\n'
    · rw [if_pos hc] at h
      rcases List.mem_cons.mp h with h | h
      · subst h
        exact ⟨List.nil_infix, by simp⟩
      · obtain ⟨hi, hn⟩ := ih l h
        exact ⟨List.infix_cons hi, hn⟩
    · rw [if_neg hc] at h
      cases heq : splitNl rest with
      | nil => exact absurd heq (splitNl_ne_nil rest)
      | cons L' LS' =>
        rw [heq] at h
        rcases List.mem_cons.mp h with h | h
        · subst h
          obtain ⟨hpfx, hnl⟩ := head_splitNl rest L' LS' heq
          constructor
          · refine infix_of_pfx ?_
            rw [List.cons_prefix_cons]
            exact ⟨rfl, hpfx⟩
          · intro hx
            rcases List.mem_cons.mp hx with hx | hx
            · exact hc hx.symm
            · exact hnl hx
        · have h2 : l ∈ splitNl rest := by
            rw [heq]
            exact List.mem_cons_of_mem _ h
          obtain ⟨hi, hn⟩ := ih l h2
          exact ⟨List.infix_cons hi, hn⟩

/-- Characters of the merged text come from the text or are quote/blank
furniture. -/
theorem mem_merge_chars :
    ∀ (s : List Char) (c : Char), c ∈ merge_consecutive_empty_lines s →
      c ∈ s ∨ c = '>' ∨ c = ' ' ∨ c = '\n' := by
  intro s c h
  unfold merge_consecutive_empty_lines at h
  have h2 := mem_collapseNlF _ _ _ h
  rcases mem_joinNl _ _ h2 with h3 | ⟨l, hl, hcl⟩
  · exact Or.inr (Or.inr (Or.inr h3))
  · rcases mergeLoop_line_cases _ _ _ hl with h4 | h4
    · obtain ⟨hinf, _⟩ := mem_splitNl s l h4
      exact Or.inl (hinf.sublist.subset hcl)
    · rcases h4 c hcl with h5 | h5
      · exact Or.inr (Or.inl h5)
      · exact Or.inr (Or.inr (Or.inl h5))

/-- A newline-free pattern containing a backslash that occurs inside the
merged text already occurs inside the text: the merger only rearranges
blank and quote-blank lines. -/
theorem infix_merge :
    ∀ (s P : List Char), '\n' ∉ P → '\\' ∈ P →
      P <:+: merge_consecutive_empty_lines s → P <:+: s := by
  intro s P hnl hbs h
  unfold merge_consecutive_empty_lines at h
  have h2 := infix_collapseNlF _ _ P hnl h
  have hPne : P ≠ [] := by
    intro hx
    rw [hx] at hbs
    exact absurd hbs (by simp)
  obtain ⟨l, hl, hinf⟩ := infix_joinNl _ P hnl hPne h2
  rcases mergeLoop_line_cases _ _ _ hl with h4 | h4
  · obtain ⟨hinf2, _⟩ := mem_splitNl s l h4
    exact hinf.trans hinf2
  · exfalso
    have hmem : '\\' ∈ l := hinf.sublist.subset hbs
    rcases h4 '\\' hmem with h5 | h5 <;> exact absurd h5 (by decide)

/-- Unfolding equation for `dollarSubF` with positive fuel on a non-empty
text. -/
theorem dollarSubF_cons (style : OutputStyle) (fuel : Nat) (prev : Option Char) (c : Char)
    (rest : List Char) :
    dollarSubF style (fuel + 1) prev (c :: rest) =
      if c = '$' then
        if prev ≠ some '\\' &&
            (match rest.head? with | some d => !isPySpace d | none => true) then
          match dollarBody rest with
          | some (body, rest2) =>
              style.math_inline_surrounding ++ sanitize_special_chars body ++
                style.math_inline_surrounding ++ dollarSubF style fuel (some '$') rest2
          | none => c :: dollarSubF style fuel (some c) rest
        else c :: dollarSubF style fuel (some c) rest
      else c :: dollarSubF style fuel (some c) rest := rfl

/-- Unfolding equation for `parenSubF` with positive fuel on a non-empty
text. -/
theorem parenSubF_cons (style : OutputStyle) (fuel : Nat) (prev : Option Char) (c : Char)
    (rest : List Char) :
    parenSubF style (fuel + 1) prev (c :: rest) =
      if c = '\\' && rest.head? = some '(' && prev ≠ some '\\' then
        match parenBody ((rest.drop 1).length + 1) [] '(' (rest.drop 1) with
        | some (body, rest3) =>
            style.math_inline_surrounding ++ sanitize_special_chars body ++
              style.math_inline_surrounding ++ parenSubF style fuel (some ')') rest3
        | none => c :: parenSubF style fuel (some c) rest
      else c :: parenSubF style fuel (some c) rest := rfl

/-- The single-`$` pass is the identity on texts with no dollar sign. -/
theorem dollarSubF_id :
    ∀ (style : OutputStyle) (fuel : Nat) (prev : Option Char) (s : List Char),
      '$' ∉ s → dollarSubF style fuel prev s = s := by
  intro style fuel
  induction fuel with
  | zero => intro prev s _; rfl
  | succ f ih =>
    intro prev s h
    cases s with
    | nil => rfl
    | cons c rest =>
      rw [dollarSubF_cons,
        if_neg (by intro hx; exact h (by rw [← hx]; exact List.mem_cons_self c rest)),
        ih (some c) rest (fun hx => h (List.mem_cons_of_mem c hx))]

/-- The `\(...\)` pass is the identity on texts without the substring
`\(`. -/
theorem parenSubF_id :
    ∀ (style : OutputStyle) (fuel : Nat) (prev : Option Char) (s : List Char),
      ¬(("\\(").data <:+: s) → parenSubF style fuel prev s = s := by
  intro style fuel
  induction fuel with
  | zero => intro prev s _; rfl
  | succ f ih =>
    intro prev s h
    cases s with
    | nil => rfl
    | cons c rest =>
      rw [parenSubF_cons]
      have hcond : ¬ ((c = '\\' && rest.head? = some '(' && prev ≠ some '\\') = true) := by
        intro hx
        rw [Bool.and_eq_true, Bool.and_eq_true] at hx
        have hc : c = '\\' := by simpa using hx.1.1
        have hh : rest.head? = some '(' := by simpa using hx.1.2
        obtain ⟨r', hr'⟩ : ∃ r', rest = '(' :: r' := by
          cases rest with
          | nil => simp at hh
          | cons d ds => exact ⟨ds, by rw [show d = '(' by simpa using hh]⟩
        refine h ?_
        rw [hc, hr']
        exact ⟨[], r', rfl⟩
      rw [if_neg hcond,
        ih (some c) rest (fun hx => h (List.infix_cons hx))]

/-- A successful begin alternation exhibits one of its tokens as a prefix
of the text. -/
theorem tryBegins_some_tok :
    ∀ (toks : List (List Char)) (s : List Char) (r : List Char × List Char × List Char),
      tryBegins toks s = some r → ∃ tok ∈ toks, tok <+: s := by
  intro toks
  induction toks with
  | nil => intro s r h; exact absurd h (by simp [tryBegins])
  | cons tok toks ih =>
    intro s r h
    rw [tryBegins_cons] at h
    by_cases hp : tok.isPrefixOf s = true
    · exact ⟨tok, by simp, List.isPrefixOf_iff_prefix.mp hp⟩
    · rw [if_neg hp] at h
      obtain ⟨tok', htoks, hpfx⟩ := ih s r h
      exact ⟨tok', List.mem_cons_of_mem tok htoks, hpfx⟩

/-- The block pattern has no match when the text has no dollar and none of
the backslash delimiters. -/
theorem matchBlockAt_none :
    ∀ s : List Char, '$' ∉ s → ¬(("\\[").data <:+: s) →
      ¬(("\\begin\x7bequation*\x7d").data <:+: s) → matchBlockAt s = none := by
  intro s h1 h2 h3
  rw [matchBlockAt_eq]
  cases htb : tryBegins blockBeginToks ((s.dropWhile isQuoteSp).dropWhile isPySpace) with
  | none => rfl
  | some r =>
    exfalso
    obtain ⟨tok, htok, hpfx⟩ := tryBegins_some_tok _ _ r htb
    have hsfx : ((s.dropWhile isQuoteSp).dropWhile isPySpace) <:+ s :=
      (List.dropWhile_suffix _).trans (List.dropWhile_suffix _)
    have hinf : tok <:+: s := (infix_of_pfx hpfx).trans (infix_of_sfx hsfx)
    rw [blockBeginToks_eq] at htok
    rcases List.mem_cons.mp htok with heq | htok
    · subst heq
      exact h3 hinf
    rcases List.mem_cons.mp htok with heq | htok
    · subst heq
      exact h2 hinf
    rcases List.mem_cons.mp htok with heq | htok
    · subst heq
      exact h1 (hinf.sublist.subset (by simp))
    rcases List.mem_cons.mp htok with heq | htok
    · subst heq
      exact h1 (hinf.sublist.subset (by simp))
    · exact absurd htok (by simp)

/-- The block pass is the identity on texts with no block delimiter. -/
theorem blockSubF_id :
    ∀ (style : OutputStyle) (fuel : Nat) (atLS : Bool) (s : List Char),
      '$' ∉ s → ¬(("\\[").data <:+: s) →
      ¬(("\\begin\x7bequation*\x7d").data <:+: s) →
      blockSubF style fuel atLS s = s := by
  intro style fuel
  induction fuel with
  | zero => intro atLS s _ _ _; rfl
  | succ f ih =>
    intro atLS s h1 h2 h3
    cases s with
    | nil => rfl
    | cons c rest =>
      rw [blockSubF_cons]
      have hm : (if atLS then matchBlockAt (c :: rest) else none) = none := by
        cases atLS with
        | false => rfl
        | true =>
          show matchBlockAt (c :: rest) = none
          exact matchBlockAt_none _ h1 h2 h3
      rw [hm]
      rw [ih _ rest (fun hx => h1 (List.mem_cons_of_mem c hx))
        (fun hx => h2 (List.infix_cons hx)) (fun hx => h3 (List.infix_cons hx))]

/-- C8: on a text containing none of the math delimiter tokens — no `$`,
no `\(`/`\)`, no `\[`/`\]`, no `\begin{equation*}` — `convert` coincides
with the blank-line merger alone: the block-math and inline-math passes
are the identity on such input. -/
theorem C8_thm :
    ∀ t : List Char, '$' ∉ t →
      ¬(("\\(").data <:+: t) → ¬(("\\)").data <:+: t) →
      ¬(("\\[").data <:+: t) → ¬(("\\]").data <:+: t) →
      ¬(("\\begin\x7bequation*\x7d").data <:+: t) →
      convert standard_output_style t = merge_consecutive_empty_lines t := by
  intro t h1 h2 h3 h4 h5 h6
  unfold convert
  rw [show convert_block_math standard_output_style t = t from
    blockSubF_id _ _ true t h1 h4 h6]
  unfold convert_inline_math
  have hm1 : '$' ∉ merge_consecutive_empty_lines t := by
    intro hx
    rcases mem_merge_chars t '$' hx with h | h | h | h
    · exact h1 h
    all_goals exact absurd h (by decide)
  have hm2 : ¬(("\\(").data <:+: merge_consecutive_empty_lines t) := by
    intro hx
    exact h2 (infix_merge t _ (by decide) (by decide) hx)
  rw [parenSubF_id _ _ none _ hm2, dollarSubF_id _ _ none _ hm1]

/-- C8 witness: a delimiter-free text with a blank-line run. -/
theorem C8_wit :
    convert standard_output_style ("hello\n\n\nworld").data =
      merge_consecutive_empty_lines ("hello\n\n\nworld").data :=
  C8_thm ("hello\n\n\nworld").data (by decide) (by decide) (by decide) (by decide)
    (by decide) (by decide)

end BlogTransfer

